import Mathlib

/-!
# Movie catalog manager (`index.js`)

A shallow embedding of the command-line movie database of `index.js`.

* The backing file `movie.json` is represented by the value `JSON.parse` yields for it
  (`Document`); `readDB` returns it and `writeDB` replaces it.
* The console is represented by the list of lines written with `console.log`, one
  constructor of `Line` per template string of the source.
* The answers the user types (the values returned by `readlineSync.question`,
  `questionInt` and `keyInYN`) are arguments of the operation that asks for them.
* A JavaScript exception (`TypeError`) is the `Except.error` result.
-/

namespace MovieDB

/-! ## Values -/

/-- A JavaScript string, as the sequence of its characters. -/
abbrev JSString := List Char

/-- A JavaScript number: `fin m e` is the finite value `m * 2 ^ e`.  The sign of a zero is
not represented: no operation of `index.js` can tell `-0` from `+0`. -/
inductive JSNum where
  | nan
  | inf (neg : Bool)
  | fin (m : Int) (e : Int)
  deriving DecidableEq, Repr

/-- The values a `year` field holds: text (what `addMovie` stores) or a JSON number. -/
inductive JSValue where
  | str (s : JSString)
  | num (x : JSNum)
  deriving DecidableEq, Repr

/-- One movie object `{ title, year, genre, rating }`. -/
structure Movie where
  title : JSString
  year : JSValue
  genre : JSString
  rating : JSString
  deriving DecidableEq, Repr

/-- The ordered list of movie records. -/
abbrev Catalog := List Movie

/-- The value `JSON.parse` returns for the backing file: an object with a `movies` array,
or a top-level array of movie objects. -/
inductive Document where
  | object (movies : Catalog)
  | array (items : Catalog)
  deriving DecidableEq, Repr

/-- The exceptions the operations can raise. -/
inductive JSError where
  | typeError
  deriving DecidableEq, Repr

/-- The result of `x.toFixed(2)`: the text `NaN`, a signed `Infinity`, the general number
text of a number of magnitude `10 ^ 21` or more, or a sign and a number of hundredths
written with two fraction digits. -/
inductive Fixed where
  | nan
  | infinity (neg : Bool)
  | large (x : JSNum)
  | decimal (neg : Bool) (hundredths : Nat)
  deriving DecidableEq, Repr

/-- One `console.log` call; each constructor is one template of the source. -/
inductive Line where
  /-- A fixed message. -/
  | text (s : String)
  /-- The line made of number, title and year of a listed record. -/
  | entry (n : Nat) (title : JSString) (year : JSValue)
  /-- The line made of number and title of a record of the sorted listing. -/
  | ranked (n : Nat) (title : JSString)
  /-- The genre line of a record. -/
  | genre (g : JSString)
  /-- The rating line of a record. -/
  | rating (r : JSString)
  /-- The heading of the genre filter listing, holding the genre typed. -/
  | genreHeading (g : JSString)
  /-- One of the four lines of the current details shown by `updateMovie`. -/
  | detail (field : String) (v : JSValue)
  /-- The line of the statistics giving the number of movies. -/
  | total (n : Nat)
  /-- The line of the statistics giving the average rating. -/
  | average (v : Fixed)
  /-- The line of the statistics giving the genres, joined with commas when printed. -/
  | genres (gs : List JSString)
  deriving DecidableEq, Repr

/-- The backing file together with everything printed so far. -/
structure World where
  doc : Document
  out : List Line
  deriving DecidableEq, Repr

/-- `console.log` of some lines, in order. -/
def World.log (w : World) (ls : List Line) : World :=
  { w with out := w.out ++ ls }

/-! ## Database access -/

/-- `readDB()`: the parsed backing file. -/
def readDB (w : World) : Document := w.doc

/-- `writeDB(data)`: the backing file is replaced by the serialised `data`. -/
def writeDB (w : World) (data : Document) : World :=
  { w with doc := data }

/-- The property access `db.movies`: `undefined` on an array, which has no such property. -/
def Document.movies? : Document → Option Catalog
  | .object ms => some ms
  | .array _ => none

/-- Evaluation of `db.movies` where a property or method of it is used next (`.length`,
`.push`, `.filter`, ...): a `TypeError` when `db.movies` is `undefined`. -/
def Document.movies (db : Document) : Except JSError Catalog :=
  match db.movies? with
  | some ms => .ok ms
  | none => .error .typeError

/-- The three lines `forEach` prints for the record at (0-based) position `index`. -/
def entryLines (index : Nat) (movie : Movie) : List Line :=
  [.entry (index + 1) movie.title movie.year, .genre movie.genre, .rating movie.rating]

/-- The `forEach` loop printing every record of a list with its 1-based number. -/
def printEntries (ms : List Movie) : List Line :=
  (ms.enum.map fun p => entryLines p.1 p.2).flatten

/-! ## Operations -/

/-- `showMovies()`. -/
def showMovies (w : World) : Except JSError World := do
  let movies ← (readDB w).movies
  if movies.length = 0 then
    return w.log [.text "No movies in database"]
  return w.log (.text "\nMovie List:" :: printEntries movies)

/-- `addMovie()`, given the four answers typed. -/
def addMovie (w : World) (title year genre rating : JSString) : Except JSError World := do
  let db := readDB w
  let movies ← db.movies
  let w := writeDB w (.object (movies ++ [⟨title, .str year, genre, rating⟩]))
  return w.log [.text "Movie added successfully!"]

/-- `findMovie()`, given the integer `n` that `questionInt` returns if it is asked.
The result is `none` for `null` and the pair of index and record otherwise. -/
def findMovie (w : World) (n : Int) : Except JSError (Option (Int × Movie) × World) := do
  let movies ← (readDB w).movies
  if movies.length = 0 then
    return (none, w.log [.text "No movies in database"])
  let w ← showMovies w
  let index := n - 1
  if h : index < 0 ∨ index ≥ movies.length then
    return (none, w.log [.text "Invalid movie number!"])
  else
    return (some (index, movies.get ⟨index.toNat, by omega⟩), w)

/-- The expression `answer || prior` for a typed answer: a string is truthy exactly when
it is not empty. -/
def orPrior (answer prior : JSString) : JSString :=
  if answer.length ≠ 0 then answer else prior

/-- The expression `answer || prior` where the prior value may be text or a number. -/
def orPriorValue (answer : JSString) (prior : JSValue) : JSValue :=
  if answer.length ≠ 0 then .str answer else prior

/-- The assignment `arr[index] = value` for an index inside the array. -/
def arraySet (arr : List Movie) (index : Int) (value : Movie) : List Movie :=
  arr.set index.toNat value

/-- `updateMovie()`, given the number typed and the four answers typed. -/
def updateMovie (w : World) (n : Int) (title year genre rating : JSString) :
    Except JSError World := do
  let (result, w) ← findMovie w n
  match result with
  | none => return w
  | some (index, movie) =>
    let w := w.log [.text "\nCurrent movie details:", .detail "Title" (.str movie.title),
      .detail "Year" movie.year, .detail "Genre" (.str movie.genre),
      .detail "Rating" (.str movie.rating),
      .text "\nEnter new details (press Enter to keep current value):"]
    let newTitle := orPrior title movie.title
    let newYear := orPriorValue year movie.year
    let newGenre := orPrior genre movie.genre
    let newRating := orPrior rating movie.rating
    let movies ← (readDB w).movies
    let w := writeDB w (.object (arraySet movies index ⟨newTitle, newYear, newGenre, newRating⟩))
    return w.log [.text "Movie updated successfully!"]

/-- The call `arr.splice(index, 1)` for an index inside the array. -/
def splice1 (arr : List Movie) (index : Int) : List Movie :=
  arr.eraseIdx index.toNat

/-- `deleteMovie()`, given the number typed and whether `keyInYN` returned `true`. -/
def deleteMovie (w : World) (n : Int) (confirm : Bool) : Except JSError World := do
  let (result, w) ← findMovie w n
  match result with
  | none => return w
  | some (index, _) =>
    if confirm then
      let movies ← (readDB w).movies
      let w := writeDB w (.object (splice1 movies index))
      return w.log [.text "Movie deleted successfully!"]
    return w

/-! ## Search and filter -/

/-- Whether `s` contains `t` as a run of consecutive characters
(`String.prototype.includes`). -/
def includes : JSString → JSString → Bool
  | [], t => t.isEmpty
  | c :: cs, t => t.isPrefixOf (c :: cs) || includes cs t

/-- `searchMovie()`, given the search term typed.  The argument `toLowerCase` is
`String.prototype.toLowerCase`. -/
def searchMovie (toLowerCase : JSString → JSString) (w : World) (searchTerm : JSString) :
    Except JSError World := do
  let movies ← (readDB w).movies
  let results := movies.filter fun movie =>
    includes (toLowerCase movie.title) (toLowerCase searchTerm)
  if results.length = 0 then
    return w.log [.text "No movies found!"]
  return w.log (.text "\nSearch Results:" :: printEntries results)

/-- The call `s.split(',')`: the pieces between the commas, at least one. -/
def splitComma : JSString → List JSString
  | [] => [[]]
  | c :: cs =>
    if c = ',' then [] :: splitComma cs
    else match splitComma cs with
      | [] => [[c]]
      | p :: ps => (c :: p) :: ps

/-- The characters `String.prototype.trim` removes: the white space and line terminator
code points of ECMAScript. -/
def isWhiteSpace (c : Char) : Bool :=
  let n := c.toNat
  n = 0x9 || n = 0xA || n = 0xB || n = 0xC || n = 0xD || n = 0x20 || n = 0xA0 ||
  n = 0x1680 || (0x2000 ≤ n && n ≤ 0x200A) || n = 0x2028 || n = 0x2029 || n = 0x202F ||
  n = 0x205F || n = 0x3000 || n = 0xFEFF

/-- The call `s.trim()`. -/
def trim (s : JSString) : JSString :=
  ((s.dropWhile isWhiteSpace).reverse.dropWhile isWhiteSpace).reverse

/-- `filterByGenre()`, given the genre typed. -/
def filterByGenre (toLowerCase : JSString → JSString) (w : World) (searchGenre : JSString) :
    Except JSError World := do
  let movies ← (readDB w).movies
  let filtered := movies.filter fun movie =>
    let movieGenres := (splitComma movie.genre).map fun g => toLowerCase (trim g)
    movieGenres.contains (toLowerCase searchGenre)
  if filtered.length = 0 then
    return w.log [.text "No movies found in that genre!"]
  return w.log (.genreHeading searchGenre :: printEntries filtered)

/-! ## Numbers

The double-precision arithmetic that `sortByRating` and `showStats` use: the coercion
`Number(rating)`, addition, subtraction, division by an array length and `toFixed(2)`.
Every operation is the exact operation on the rationals followed by rounding to the
nearest double, ties to the even significand. -/

/-- The number of binary digits of `n`, by halving at most `fuel` times. -/
def bitLengthAux : Nat → Nat → Nat
  | 0, _ => 0
  | fuel + 1, n => if n = 0 then 0 else bitLengthAux fuel (n / 2) + 1

/-- The number of binary digits of `n` (0 for 0). -/
def bitLength (n : Nat) : Nat := bitLengthAux n n

/-- The natural number `n * 2 ^ k` for `k ≥ 0`, and `n` for `k < 0`. -/
def shiftUp (n : Nat) (k : Int) : Nat := n * 2 ^ k.toNat

/-- The integer part of the binary logarithm of `num / den`, for positive `num`, `den`. -/
def floorLog2 (num den : Nat) : Int :=
  let d : Int := (bitLength num : Int) - (bitLength den : Int)
  if shiftUp den d ≤ shiftUp num (-d) then d else d - 1

/-- The integer nearest to `n / d`, the even one of the two when `n / d` is half-way. -/
def roundHalfEven (n d : Nat) : Nat :=
  let q := n / d
  let r := n % d
  if 2 * r < d then q
  else if d < 2 * r then q + 1
  else if q % 2 = 0 then q else q + 1

/-- The double nearest to the rational `num / den` (with `den > 0`), negated when `neg`:
53 significant bits, least exponent `-1074`, and infinity from `2 ^ 1024 - 2 ^ 970` on. -/
def roundDouble (neg : Bool) (num den : Nat) : JSNum :=
  if num = 0 then .fin 0 0
  else
    let e : Int := max (floorLog2 num den - 52) (-1074)
    let m := roundHalfEven (shiftUp num (-e)) (shiftUp den e)
    if 972 ≤ e ∨ (e = 971 ∧ 2 ^ 53 ≤ m) then .inf neg
    else .fin (if neg then -(m : Int) else (m : Int)) e

/-- The double nearest to `m * 2 ^ e`. -/
def roundDyadic (m e : Int) : JSNum :=
  roundDouble (decide (m < 0)) (shiftUp m.natAbs e) (shiftUp 1 (-e))

/-- The exact sum `m1 * 2 ^ e1 + m2 * 2 ^ e2` as a multiple of `2 ^ min e1 e2`. -/
def alignedSum (m1 e1 m2 e2 : Int) : Int :=
  m1 * 2 ^ (e1 - min e1 e2).toNat + m2 * 2 ^ (e2 - min e1 e2).toNat

/-- The sum `x + y` of two numbers. -/
def JSNum.add : JSNum → JSNum → JSNum
  | .nan, _ => .nan
  | _, .nan => .nan
  | .inf a, .inf b => if a = b then .inf a else .nan
  | .inf a, .fin _ _ => .inf a
  | .fin _ _, .inf b => .inf b
  | .fin m1 e1, .fin m2 e2 => roundDyadic (alignedSum m1 e1 m2 e2) (min e1 e2)

/-- The difference `x - y` of two numbers. -/
def JSNum.sub : JSNum → JSNum → JSNum
  | .nan, _ => .nan
  | _, .nan => .nan
  | .inf a, .inf b => if a = b then .nan else .inf a
  | .inf a, .fin _ _ => .inf a
  | .fin _ _, .inf b => .inf (!b)
  | .fin m1 e1, .fin m2 e2 => roundDyadic (alignedSum m1 e1 (-m2) e2) (min e1 e2)

/-- The quotient `x / k` of a number by an array length `k` (a non-negative integer,
`+0` when the array is empty). -/
def JSNum.divLength : JSNum → Nat → JSNum
  | .nan, _ => .nan
  | .inf a, _ => .inf a
  | .fin m e, k =>
    if k = 0 then (if m = 0 then .nan else .inf (decide (m < 0)))
    else roundDouble (decide (m < 0)) (shiftUp m.natAbs e) (k * shiftUp 1 (-e))

/-- The value of a digit in a base up to 16, if the character is one. -/
def digitValue (base : Nat) (c : Char) : Option Nat :=
  let n := c.toNat
  let v := if 48 ≤ n ∧ n ≤ 57 then some (n - 48)
    else if 97 ≤ n ∧ n ≤ 102 then some (n - 87)
    else if 65 ≤ n ∧ n ≤ 70 then some (n - 55)
    else none
  v.bind fun d => if d < base then some d else none

/-- The value of a non-empty run of digits in the base, `none` if it is empty or holds
another character. -/
def digitsValue (base : Nat) (s : JSString) : Option Nat :=
  if s = [] then none
  else s.foldl (fun acc c => acc.bind fun a => (digitValue base c).map fun d => a * base + d)
    (some 0)

/-- The exponent part of a decimal literal (`e` or `E`, an optional sign, digits), 0 when
there is none. -/
def parseExponent : JSString → Option Int
  | [] => some 0
  | c :: rest =>
    if c = 'e' ∨ c = 'E' then
      match rest with
      | '+' :: ds => (digitsValue 10 ds).map fun v => (v : Int)
      | '-' :: ds => (digitsValue 10 ds).map fun v => -(v : Int)
      | ds => (digitsValue 10 ds).map fun v => (v : Int)
    else none

/-- An unsigned decimal literal other than `Infinity`, as the pair `(n, k)` of the number
`n * 10 ^ k` it denotes: digits with an optional fraction and exponent, or a fraction
starting with the dot. -/
def parseUnsignedDecimal (s : JSString) : Option (Nat × Int) :=
  let ip := s.takeWhile Char.isDigit
  let r1 := s.dropWhile Char.isDigit
  match r1 with
  | '.' :: r2 =>
    let fp := r2.takeWhile Char.isDigit
    let r3 := r2.dropWhile Char.isDigit
    if ip = [] ∧ fp = [] then none
    else (parseExponent r3).bind fun ex =>
      (digitsValue 10 ('0' :: (ip ++ fp))).map fun n => (n, ex - (fp.length : Int))
  | _ =>
    if ip = [] then none
    else (parseExponent r1).bind fun ex => (digitsValue 10 ip).map fun n => (n, ex)

/-- The double nearest to `n * 10 ^ k`, negated when `neg`. -/
def roundDecimal (neg : Bool) (n : Nat) (k : Int) : JSNum :=
  roundDouble neg (n * 10 ^ k.toNat) (10 ^ (-k).toNat)

/-- A decimal literal without sign: `Infinity` or an unsigned decimal literal. -/
def parseUnsigned (neg : Bool) (s : JSString) : JSNum :=
  if s = "Infinity".toList then .inf neg
  else match parseUnsignedDecimal s with
    | some (n, k) => roundDecimal neg n k
    | none => .nan

/-- `Number(s)` for a string: the white space around it is dropped; the empty string is 0;
a binary, octal or hexadecimal integer literal or a signed decimal literal is its nearest
double; anything else is `NaN`. -/
def toNumber (s : JSString) : JSNum :=
  match trim s with
  | [] => .fin 0 0
  | '0' :: 'x' :: ds | '0' :: 'X' :: ds =>
    match digitsValue 16 ds with
    | some n => roundDouble false n 1
    | none => .nan
  | '0' :: 'o' :: ds | '0' :: 'O' :: ds =>
    match digitsValue 8 ds with
    | some n => roundDouble false n 1
    | none => .nan
  | '0' :: 'b' :: ds | '0' :: 'B' :: ds =>
    match digitsValue 2 ds with
    | some n => roundDouble false n 1
    | none => .nan
  | '+' :: rest => parseUnsigned false rest
  | '-' :: rest => parseUnsigned true rest
  | t => parseUnsigned false t

/-- `x.toFixed(2)`: for a finite `x` of magnitude below `10 ^ 21`, the integer `n` for
which `n / 100` is nearest to the magnitude of `x`, the larger one of two. -/
def toFixed2 : JSNum → Fixed
  | .nan => .nan
  | .inf neg => .infinity neg
  | .fin m e =>
    let num := shiftUp m.natAbs e
    let den := shiftUp 1 (-e)
    if 10 ^ 21 * den ≤ num then .large (.fin m e)
    else .decimal (decide (m < 0)) ((200 * num + den) / (2 * den))

/-! ## Sorting and statistics -/

/-- Whether a comparator result makes `Array.prototype.sort` place the first argument
after the second: the result is a number above 0 (`NaN` counts as `+0`). -/
def JSNum.isPositive : JSNum → Bool
  | .nan => false
  | .inf neg => !neg
  | .fin m _ => decide (0 < m)

/-- Insertion of `a`, which came before the records of the list in the array, into the
sorted list: after every record it must follow, before the first one it need not. -/
def insertSorted (comparefn : Movie → Movie → JSNum) (a : Movie) : List Movie → List Movie
  | [] => [a]
  | b :: l =>
    if (comparefn a b).isPositive then b :: insertSorted comparefn a l else a :: b :: l

/-- `arr.sort(comparefn)` on a copy of the array.  ECMAScript requires the sort to be
stable and, for a consistent comparator, sorted; that fixes the result, which this
insertion sort computes.  (For an inconsistent comparator the order is left to the
engine.) -/
def arraySort (comparefn : Movie → Movie → JSNum) : List Movie → List Movie
  | [] => []
  | a :: l => insertSorted comparefn a (arraySort comparefn l)

/-- The comparator `(a, b) => b.rating - a.rating`: both ratings are coerced to numbers. -/
def compareRating (a b : Movie) : JSNum :=
  (toNumber b.rating).sub (toNumber a.rating)

/-- The three lines `forEach` prints for the record at position `index` of the sorted
list. -/
def rankedLines (index : Nat) (movie : Movie) : List Line :=
  [.ranked (index + 1) movie.title, .rating movie.rating, .genre movie.genre]

/-- `sortByRating()`. -/
def sortByRating (w : World) : Except JSError World := do
  let movies ← (readDB w).movies
  let sorted := arraySort compareRating movies
  return w.log (.text "\nMovies sorted by rating (highest to lowest):" ::
    (sorted.enum.map fun p => rankedLines p.1 p.2).flatten)

/-- The `reduce` of `showStats`: the ratings coerced to numbers and added from the left,
starting from 0. -/
def sumRatings (movies : List Movie) : JSNum :=
  movies.foldl (fun (sum : JSNum) movie => sum.add (toNumber movie.rating)) (.fin 0 0)

/-- The quotient `sum / totalMovies` of `showStats`, before `toFixed(2)`. -/
def meanRating (movies : List Movie) : JSNum :=
  (sumRatings movies).divLength movies.length

/-- `showStats()`. -/
def showStats (w : World) : Except JSError World := do
  let movies ← (readDB w).movies
  let totalMovies := movies.length
  let avgRating := toFixed2
    ((movies.foldl (fun (sum : JSNum) movie => sum.add (toNumber movie.rating))
      (.fin 0 0)).divLength totalMovies)
  let genres := (movies.map fun movie => movie.genre).eraseDups
  return w.log [.text "\nDatabase Statistics:", .total totalMovies, .average avgRating,
    .genres genres]

/-- The comparison `x ≤ y` of the exact values of two numbers, `false` when one of them
is `NaN`.  (A value can have several representations `fin m e`; this compares values.) -/
def JSNum.le : JSNum → JSNum → Bool
  | .nan, _ => false
  | _, .nan => false
  | .inf a, .inf b => a || !b
  | .inf a, .fin _ _ => a
  | .fin _ _, .inf b => !b
  | .fin m1 e1, .fin m2 e2 => decide (alignedSum m1 e1 (-m2) e2 ≤ 0)

/-- A number that is not `NaN` and whose exponent, when it is finite, is at least the
least exponent `-1074` of a double. -/
def JSNum.Proper : JSNum → Prop
  | .nan => False
  | .inf _ => True
  | .fin _ e => -1074 ≤ e

/-- Whether the rating of a record, coerced to a number, has the value `x`. -/
def sameRating (x : JSNum) (m : Movie) : Bool :=
  (toNumber m.rating).le x && x.le (toNumber m.rating)

/-- A catalog of three records rated 1, 2 and 2, used to run the statistics on an
example. -/
def tiedCatalog : Catalog :=
  [⟨"Alien".toList, .str "1979".toList, "Horror".toList, "1".toList⟩,
   ⟨"Big".toList, .str "1988".toList, "Comedy".toList, "2".toList⟩,
   ⟨"Clue".toList, .str "1985".toList, "Comedy".toList, "2".toList⟩]

/-- The exact value of a finite number (0 for the others). -/
def JSNum.toRat : JSNum → ℚ
  | .fin m e => (m : ℚ) * (2 : ℚ) ^ e
  | _ => 0

/-- The number that the text of a `toFixed(2)` result denotes, if it denotes one. -/
def Fixed.toRat? : Fixed → Option ℚ
  | .decimal neg n => some (if neg then -((n : ℚ) / 100) else (n : ℚ) / 100)
  | .large x => some x.toRat
  | _ => none

/-- The claim's words: the arithmetic mean of all ratings coerced to numbers, the sum of
the values `Number(rating)` divided by the number of records, in exact arithmetic. -/
def arithmeticMean (cat : Catalog) : ℚ :=
  (cat.map fun m => (toNumber m.rating).toRat).sum / (cat.length : ℚ)

/-- The number `x` is finite and not negative, with least exponent `-1074`, and has the
value `v`. -/
def JSNum.NonnegValue (x : JSNum) (v : ℚ) : Prop :=
  ∃ (m : Nat) (e : Int), x = .fin (m : Int) e ∧ -1074 ≤ e ∧ v = (m : ℚ) * (2 : ℚ) ^ e

/-! ## Reading the console back -/

/-- The records a listing shows: every run of an entry line, a genre line and a rating
line is one record. -/
def listedRecords : List Line → List Movie
  | .entry _ t y :: .genre g :: .rating r :: rest => ⟨t, y, g, r⟩ :: listedRecords rest
  | _ :: rest => listedRecords rest
  | [] => []

/-- The title, rating and genre of the records a sorted listing shows, in the order shown. -/
def rankedRecords : List Line → List (JSString × JSString × JSString)
  | .ranked _ t :: .rating r :: .genre g :: rest => (t, r, g) :: rankedRecords rest
  | _ :: rest => rankedRecords rest
  | [] => []

/-- The average rating a statistics display shows, if it shows one. -/
def shownAverage : List Line → Option Fixed
  | .average v :: _ => some v
  | _ :: rest => shownAverage rest
  | [] => none

/-- The numbers a listing gives to the records it shows. -/
def listedNumbers : List Line → List Nat
  | .entry n _ _ :: rest => n :: listedNumbers rest
  | _ :: rest => listedNumbers rest
  | [] => []

/-- What `showMovies` prints for a catalog. -/
def listing (c : Catalog) : List Line :=
  if c.length = 0 then [.text "No movies in database"]
  else .text "\nMovie List:" :: printEntries c

/-- A small catalog used to run the operations on examples. -/
def sampleCatalog : Catalog :=
  [⟨"Heat".toList, .str "1995".toList, "Crime, Drama".toList, "8".toList⟩,
   ⟨"Airplane!".toList, .str "1980".toList, "Comedy".toList, "9.5".toList⟩,
   ⟨"Up".toList, .str "2009".toList, "Animation,comedy ".toList, "8".toList⟩]

/-- A lower-casing of the letters `A` to `Z` only, used to run the operations on
examples. -/
def asciiLower (s : JSString) : JSString := s.map Char.toLower


/-! ## Lemmas on the listing -/

theorem listedRecords_enumFrom (ms : List Movie) (k : Nat) :
    listedRecords ((ms.enumFrom k).map fun p => entryLines p.1 p.2).flatten = ms := by
  induction ms generalizing k with
  | nil => simp [listedRecords]
  | cons m ms ih =>
    simp only [List.enumFrom_cons, List.map_cons, List.flatten_cons, entryLines,
      List.cons_append, List.nil_append, listedRecords]
    exact congrArg (_ :: ·) (ih (k + 1))

theorem listedRecords_printEntries (ms : List Movie) : listedRecords (printEntries ms) = ms :=
  listedRecords_enumFrom ms 0

theorem listedNumbers_enumFrom (ms : List Movie) (k : Nat) :
    listedNumbers ((ms.enumFrom k).map fun p => entryLines p.1 p.2).flatten
      = List.range' (k + 1) ms.length := by
  induction ms generalizing k with
  | nil => simp [listedNumbers]
  | cons m ms ih =>
    simp only [List.enumFrom_cons, List.map_cons, List.flatten_cons, entryLines,
      List.cons_append, List.nil_append, listedNumbers, List.length_cons, List.range'_succ]
    exact congrArg (_ :: ·) (ih (k + 1))

theorem listedNumbers_printEntries (ms : List Movie) :
    listedNumbers (printEntries ms) = List.range' 1 ms.length :=
  listedNumbers_enumFrom ms 0

theorem listedRecords_listing (c : Catalog) : listedRecords (listing c) = c := by
  unfold listing
  split
  · rename_i h
    simp [listedRecords, List.length_eq_zero.mp h]
  · simp [listedRecords, listedRecords_printEntries]

theorem showMovies_object (c : Catalog) (out : List Line) :
    showMovies ⟨.object c, out⟩ = .ok ⟨.object c, out ++ listing c⟩ := by
  unfold showMovies listing
  by_cases h : c.length = 0 <;>
    simp [readDB, Document.movies, Document.movies?, World.log, h, bind, Except.bind, pure,
      Except.pure]

/-! ## Lemmas on `findMovie` -/

theorem findMovie_empty (out : List Line) (n : Int) :
    findMovie ⟨.object [], out⟩ n
      = .ok (none, ⟨.object [], out ++ [.text "No movies in database"]⟩) := by
  simp [findMovie, readDB, Document.movies, Document.movies?, World.log, bind, Except.bind,
    pure, Except.pure]

theorem findMovie_invalid (cat : Catalog) (out : List Line) (n : Int) (hc : cat ≠ [])
    (h : n < 1 ∨ n > cat.length) :
    findMovie ⟨.object cat, out⟩ n
      = .ok (none, ⟨.object cat, out ++ listing cat ++ [.text "Invalid movie number!"]⟩) := by
  have hlen : cat.length ≠ 0 := by simpa using hc
  have hidx : n - 1 < 0 ∨ n - 1 ≥ (cat.length : Int) := by omega
  unfold findMovie
  simp only [readDB, Document.movies, Document.movies?, bind, Except.bind, hlen, if_false]
  rw [showMovies_object]
  simp only [dif_pos hidx, pure, Except.pure, World.log]

theorem findMovie_valid (cat : Catalog) (out : List Line) (n : Int) (h1 : 1 ≤ n)
    (h2 : n ≤ cat.length) :
    ∃ movie, cat[(n - 1).toNat]? = some movie ∧
      findMovie ⟨.object cat, out⟩ n
        = .ok (some (n - 1, movie), ⟨.object cat, out ++ listing cat⟩) := by
  have hlen : cat.length ≠ 0 := by omega
  have hidx : ¬ (n - 1 < 0 ∨ n - 1 ≥ (cat.length : Int)) := by omega
  have hk : (n - 1).toNat < cat.length := by omega
  refine ⟨cat.get ⟨(n - 1).toNat, hk⟩, by simp, ?_⟩
  unfold findMovie
  simp only [readDB, Document.movies, Document.movies?, bind, Except.bind, hlen, if_false]
  rw [showMovies_object]
  simp only [dif_neg hidx, pure, Except.pure]

/-! ## Deleting -/

theorem deleteMovie_confirmed (cat : Catalog) (out : List Line) (n : Int) (h1 : 1 ≤ n)
    (h2 : n ≤ cat.length) :
    deleteMovie ⟨.object cat, out⟩ n true
      = .ok ⟨.object (cat.eraseIdx (n - 1).toNat),
          out ++ listing cat ++ [.text "Movie deleted successfully!"]⟩ := by
  obtain ⟨movie, -, hf⟩ := findMovie_valid cat out n h1 h2
  simp [deleteMovie, hf, bind, Except.bind, pure, Except.pure, readDB, Document.movies,
    Document.movies?, writeDB, World.log, splice1]

/-- C1: for every catalog and every entered number `n` with `1 ≤ n ≤ length`, a confirmed
`deleteMovie` saves a catalog one record shorter in which every position before `n - 1`
holds the record it held and every position from `n - 1` on holds the record that was
one position later. -/
theorem deleteMovie_removes_exactly (cat : Catalog) (out : List Line) (n : Int)
    (h1 : 1 ≤ n) (h2 : n ≤ cat.length) :
    ∃ saved out', deleteMovie ⟨.object cat, out⟩ n true = .ok ⟨.object saved, out'⟩ ∧
      saved.length = cat.length - 1 ∧
      (∀ i : Nat, (i : Int) < n - 1 → saved.get? i = cat.get? i) ∧
      (∀ i : Nat, n - 1 ≤ (i : Int) → saved.get? i = cat.get? (i + 1)) := by
  have hk : (n - 1).toNat < cat.length := by omega
  refine ⟨_, _, deleteMovie_confirmed cat out n h1 h2, ?_, ?_, ?_⟩
  · exact List.length_eraseIdx_of_lt hk
  · intro i hi
    simp only [List.get?_eq_getElem?]
    rw [List.getElem?_eraseIdx]
    have : i < (n - 1).toNat := by omega
    rw [if_pos this]
  · intro i hi
    simp only [List.get?_eq_getElem?]
    rw [List.getElem?_eraseIdx]
    have : ¬ i < (n - 1).toNat := by omega
    rw [if_neg this]

theorem deleteMovie_removes_exactly_witness :
    (1 : Int) ≤ 2 ∧ (2 : Int) ≤ sampleCatalog.length ∧
    ∃ saved out', deleteMovie ⟨.object sampleCatalog, []⟩ 2 true = .ok ⟨.object saved, out'⟩ ∧
      saved.length = sampleCatalog.length - 1 ∧
      (∀ i : Nat, (i : Int) < 2 - 1 → saved.get? i = sampleCatalog.get? i) ∧
      (∀ i : Nat, 2 - 1 ≤ (i : Int) → saved.get? i = sampleCatalog.get? (i + 1)) :=
  ⟨by decide, by decide, deleteMovie_removes_exactly sampleCatalog [] 2 (by decide) (by decide)⟩

/-! ## Updating -/

theorem updateMovie_valid (cat : Catalog) (out : List Line) (n : Int)
    (title year genre rating : JSString) (h1 : 1 ≤ n) (h2 : n ≤ cat.length) :
    ∃ old, cat.get? (n - 1).toNat = some old ∧
      updateMovie ⟨.object cat, out⟩ n title year genre rating
        = .ok ⟨.object (cat.set (n - 1).toNat
            ⟨orPrior title old.title, orPriorValue year old.year, orPrior genre old.genre,
              orPrior rating old.rating⟩),
            out ++ listing cat ++
              [.text "\nCurrent movie details:", .detail "Title" (.str old.title),
                .detail "Year" old.year, .detail "Genre" (.str old.genre),
                .detail "Rating" (.str old.rating),
                .text "\nEnter new details (press Enter to keep current value):"] ++
              [.text "Movie updated successfully!"]⟩ := by
  obtain ⟨movie, hm, hf⟩ := findMovie_valid cat out n h1 h2
  refine ⟨movie, by simpa using hm, ?_⟩
  simp only [updateMovie, hf, bind, Except.bind, pure, Except.pure, readDB, Document.movies,
    Document.movies?, writeDB, World.log, arraySet]

/-- C2: for every catalog, every valid selected position and every four input lines given
to `updateMovie`, each field of the saved record at that position is the prior value of
the field when its input line is empty and the input line when it is not. -/
theorem updateMovie_blank_keeps_prior (cat : Catalog) (out : List Line) (n : Int)
    (title year genre rating : JSString) (h1 : 1 ≤ n) (h2 : n ≤ cat.length) :
    ∃ saved out' old new,
      updateMovie ⟨.object cat, out⟩ n title year genre rating = .ok ⟨.object saved, out'⟩ ∧
      cat.get? (n - 1).toNat = some old ∧ saved.get? (n - 1).toNat = some new ∧
      (title = [] → new.title = old.title) ∧ (title ≠ [] → new.title = title) ∧
      (year = [] → new.year = old.year) ∧ (year ≠ [] → new.year = .str year) ∧
      (genre = [] → new.genre = old.genre) ∧ (genre ≠ [] → new.genre = genre) ∧
      (rating = [] → new.rating = old.rating) ∧ (rating ≠ [] → new.rating = rating) := by
  obtain ⟨old, hold, hu⟩ := updateMovie_valid cat out n title year genre rating h1 h2
  have hk : (n - 1).toNat < cat.length := by omega
  refine ⟨_, _, old, ⟨orPrior title old.title, orPriorValue year old.year,
    orPrior genre old.genre, orPrior rating old.rating⟩, hu, hold, ?_, ?_⟩
  · simp only [List.get?_eq_getElem?]
    rw [List.getElem?_set_self (by simpa using hk)]
  · simp only [orPrior, orPriorValue, ne_eq, List.length_eq_zero]
    refine ⟨?_, ?_, ?_, ?_, ?_, ?_, ?_, ?_⟩ <;> intro h <;> simp [h]

theorem updateMovie_blank_keeps_prior_witness :
    (1 : Int) ≤ 2 ∧ (2 : Int) ≤ sampleCatalog.length ∧
    ∃ saved out' old new,
      updateMovie ⟨.object sampleCatalog, []⟩ 2 [] "1981".toList [] "9".toList
        = .ok ⟨.object saved, out'⟩ ∧
      sampleCatalog.get? ((2 : Int) - 1).toNat = some old ∧
      saved.get? ((2 : Int) - 1).toNat = some new ∧
      (([] : JSString) = [] → new.title = old.title) ∧
      (([] : JSString) ≠ [] → new.title = []) ∧
      ("1981".toList = [] → new.year = old.year) ∧
      ("1981".toList ≠ [] → new.year = .str "1981".toList) ∧
      (([] : JSString) = [] → new.genre = old.genre) ∧
      (([] : JSString) ≠ [] → new.genre = []) ∧
      ("9".toList = [] → new.rating = old.rating) ∧
      ("9".toList ≠ [] → new.rating = "9".toList) :=
  ⟨by decide, by decide,
    updateMovie_blank_keeps_prior sampleCatalog [] 2 [] "1981".toList [] "9".toList
      (by decide) (by decide)⟩

/-- C3: for every catalog and every valid selected position, `updateMovie` saves a catalog
of the same length in which every record at another position is the record the catalog
held there. -/
theorem updateMovie_frame (cat : Catalog) (out : List Line) (n : Int)
    (title year genre rating : JSString) (h1 : 1 ≤ n) (h2 : n ≤ cat.length) :
    ∃ saved out',
      updateMovie ⟨.object cat, out⟩ n title year genre rating = .ok ⟨.object saved, out'⟩ ∧
      saved.length = cat.length ∧
      ∀ i : Nat, (i : Int) ≠ n - 1 → saved.get? i = cat.get? i := by
  obtain ⟨old, -, hu⟩ := updateMovie_valid cat out n title year genre rating h1 h2
  refine ⟨_, _, hu, List.length_set .., ?_⟩
  intro i hi
  have : (n - 1).toNat ≠ i := by omega
  simp only [List.get?_eq_getElem?]
  rw [List.getElem?_set_ne this]

theorem updateMovie_frame_witness :
    (1 : Int) ≤ 3 ∧ (3 : Int) ≤ sampleCatalog.length ∧
    ∃ saved out',
      updateMovie ⟨.object sampleCatalog, []⟩ 3 "Up!".toList [] [] [] = .ok ⟨.object saved, out'⟩ ∧
      saved.length = sampleCatalog.length ∧
      ∀ i : Nat, (i : Int) ≠ 3 - 1 → saved.get? i = sampleCatalog.get? i :=
  ⟨by decide, by decide,
    updateMovie_frame sampleCatalog [] 3 "Up!".toList [] [] [] (by decide) (by decide)⟩

/-! ## Adding -/

/-- C4: for every catalog and every entered title, year, genre and rating, `addMovie`
saves the catalog followed by the record with those four values: the length grows by
one, the prior records keep their positions, the new record is last, and a listing made
next shows the prior records in order followed by the new one. -/
theorem addMovie_appends (cat : Catalog) (out : List Line)
    (title year genre rating : JSString) :
    ∃ w1 w2 shown,
      addMovie ⟨.object cat, out⟩ title year genre rating = .ok w1 ∧
      w1.doc = .object (cat ++ [Movie.mk title (.str year) genre rating]) ∧
      (cat ++ [Movie.mk title (.str year) genre rating]).length = cat.length + 1 ∧
      (cat ++ [Movie.mk title (.str year) genre rating]).getLast? =
        some (Movie.mk title (.str year) genre rating) ∧
      (cat ++ [Movie.mk title (.str year) genre rating]).take cat.length = cat ∧
      showMovies w1 = .ok w2 ∧ w2.out = w1.out ++ shown ∧ w2.doc = w1.doc ∧
      listedRecords shown = cat ++ [Movie.mk title (.str year) genre rating] ∧
      listedNumbers shown = List.range' 1 (cat.length + 1) := by
  refine ⟨⟨.object (cat ++ [Movie.mk title (.str year) genre rating]),
      out ++ [.text "Movie added successfully!"]⟩, _,
    listing (cat ++ [Movie.mk title (.str year) genre rating]), ?_, rfl, by simp, by simp, by simp,
    showMovies_object _ _, rfl, rfl, listedRecords_listing _, ?_⟩
  · simp [addMovie, readDB, Document.movies, Document.movies?, writeDB, World.log, bind,
      Except.bind, pure, Except.pure]
  · simp [listing, listedNumbers, listedNumbers_printEntries]

/-! ## Selecting a record -/

theorem updateMovie_of_none (w w' : World) (n : Int) (title year genre rating : JSString)
    (h : findMovie w n = .ok (none, w')) :
    updateMovie w n title year genre rating = .ok w' := by
  simp [updateMovie, h, bind, Except.bind, pure, Except.pure]

theorem deleteMovie_of_none (w w' : World) (n : Int) (confirm : Bool)
    (h : findMovie w n = .ok (none, w')) :
    deleteMovie w n confirm = .ok w' := by
  simp [deleteMovie, h, bind, Except.bind, pure, Except.pure]

theorem findMovie_out_of_range (cat : Catalog) (out : List Line) (n : Int)
    (h : n < 1 ∨ n > cat.length) :
    ∃ shown message, findMovie ⟨.object cat, out⟩ n
      = .ok (none, ⟨.object cat, out ++ shown ++ [.text message]⟩) := by
  by_cases hc : cat = []
  · subst hc
    exact ⟨[], "No movies in database", by rw [findMovie_empty]; simp⟩
  · exact ⟨listing cat, _, findMovie_invalid cat out n hc h⟩

/-- C7: for every catalog and every entered number `n` with `n < 1` or `n > length`
(every `n` when the catalog is empty), `findMovie` prints a message and returns no
selection, and `updateMovie` and `deleteMovie` then end with the stored document
unchanged; for every `n` with `1 ≤ n ≤ length`, `findMovie` returns the index `n - 1`
with the record at that index. -/
theorem findMovie_selection (cat : Catalog) (out : List Line) (n : Int) :
    (n < 1 ∨ n > cat.length →
      (∃ shown message, findMovie ⟨.object cat, out⟩ n
        = .ok (none, ⟨.object cat, out ++ shown ++ [.text message]⟩)) ∧
      (∀ title year genre rating, ∃ out',
        updateMovie ⟨.object cat, out⟩ n title year genre rating = .ok ⟨.object cat, out'⟩) ∧
      (∀ confirm, ∃ out', deleteMovie ⟨.object cat, out⟩ n confirm = .ok ⟨.object cat, out'⟩)) ∧
    (1 ≤ n ∧ n ≤ cat.length →
      ∃ movie w', cat.get? (n - 1).toNat = some movie ∧
        findMovie ⟨.object cat, out⟩ n = .ok (some (n - 1, movie), w') ∧
        w'.doc = .object cat) := by
  constructor
  · intro h
    obtain ⟨shown, message, hf⟩ := findMovie_out_of_range cat out n h
    exact ⟨⟨shown, message, hf⟩,
      fun title year genre rating => ⟨_, updateMovie_of_none _ _ n title year genre rating hf⟩,
      fun confirm => ⟨_, deleteMovie_of_none _ _ n confirm hf⟩⟩
  · rintro ⟨h1, h2⟩
    obtain ⟨movie, hm, hf⟩ := findMovie_valid cat out n h1 h2
    exact ⟨movie, _, by simpa using hm, hf, rfl⟩

theorem findMovie_selection_witness :
    ((∃ shown message, findMovie ⟨.object sampleCatalog, []⟩ 4
        = .ok (none, ⟨.object sampleCatalog, [] ++ shown ++ [.text message]⟩)) ∧
      (∀ title year genre rating, ∃ out',
        updateMovie ⟨.object sampleCatalog, []⟩ 4 title year genre rating
          = .ok ⟨.object sampleCatalog, out'⟩) ∧
      (∀ confirm, ∃ out',
        deleteMovie ⟨.object sampleCatalog, []⟩ 4 confirm = .ok ⟨.object sampleCatalog, out'⟩)) ∧
    (∃ movie w', sampleCatalog.get? ((1 : Int) - 1).toNat = some movie ∧
        findMovie ⟨.object sampleCatalog, []⟩ 1 = .ok (some (1 - 1, movie), w') ∧
        w'.doc = .object sampleCatalog) :=
  ⟨(findMovie_selection sampleCatalog [] 4).1 (by decide),
    (findMovie_selection sampleCatalog [] 1).2 (by decide)⟩

/-! ## Loading and listing -/

/-- C8, as the claim states it, fails: for a backing document whose top-level value is an
array holding one movie object, `db.movies` is `undefined` and `showMovies` ends with a
`TypeError` instead of showing the record. -/
theorem showMovies_top_level_array_fails :
    (readDB ⟨.array [⟨"Heat".toList, .str "1995".toList, "Crime".toList, "8".toList⟩], []⟩).movies?
      = none ∧
    showMovies ⟨.array [⟨"Heat".toList, .str "1995".toList, "Crime".toList, "8".toList⟩], []⟩
      = .error .typeError ∧
    ¬ ∃ w', showMovies
      ⟨.array [⟨"Heat".toList, .str "1995".toList, "Crime".toList, "8".toList⟩], []⟩ = .ok w' := by
  refine ⟨rfl, rfl, ?_⟩
  rintro ⟨w', h⟩
  cases h

/-- C8, amended: for every backing document that is an object whose `movies` property is
an array of movie objects, `readDB` yields that object, its `movies` array is the catalog,
and `showMovies` succeeds, leaves the document as it is and shows exactly those records
in order, numbered from 1 (only the empty-catalog message when the array is empty). -/
theorem showMovies_object_lists_catalog (cat : Catalog) (out : List Line) :
    readDB ⟨.object cat, out⟩ = .object cat ∧
    (readDB ⟨.object cat, out⟩).movies = .ok cat ∧
    ∃ shown, showMovies ⟨.object cat, out⟩ = .ok ⟨.object cat, out ++ shown⟩ ∧
      listedRecords shown = cat ∧
      listedNumbers shown = List.range' 1 cat.length ∧
      (shown = [.text "No movies in database"] ↔ cat = []) := by
  refine ⟨rfl, rfl, listing cat, showMovies_object cat out, listedRecords_listing cat, ?_, ?_⟩
  · unfold listing
    split
    · rename_i h
      simp [listedNumbers, h]
    · simp [listedNumbers, listedNumbers_printEntries]
  · unfold listing
    constructor
    · intro h
      split at h
      · rename_i h0
        exact List.length_eq_zero.mp h0
      · simp at h
    · intro h
      simp [h]

/-! ## Searching by title -/

theorem includes_iff (s t : JSString) : includes s t = true ↔ t <:+: s := by
  induction s with
  | nil => simp [includes]
  | cons c cs ih => simp [includes, ih, List.infix_cons_iff]

theorem searchMovie_object (toLowerCase : JSString → JSString) (cat : Catalog)
    (out : List Line) (t : JSString) :
    ∃ shown, searchMovie toLowerCase ⟨.object cat, out⟩ t = .ok ⟨.object cat, out ++ shown⟩ ∧
      listedRecords shown
        = cat.filter fun m => includes (toLowerCase m.title) (toLowerCase t) := by
  by_cases h : (cat.filter fun m => includes (toLowerCase m.title) (toLowerCase t)).length = 0
  · refine ⟨[.text "No movies found!"], ?_, ?_⟩
    · simp only [searchMovie, readDB, Document.movies, Document.movies?, World.log, bind,
        Except.bind, pure, Except.pure, h, if_true]
    · rw [List.length_eq_zero.mp h]
      simp [listedRecords]
  · refine ⟨.text "\nSearch Results:" :: printEntries
      (cat.filter fun m => includes (toLowerCase m.title) (toLowerCase t)), ?_, ?_⟩
    · simp only [searchMovie, readDB, Document.movies, Document.movies?, World.log, bind,
        Except.bind, pure, Except.pure, h, if_false]
    · simp [listedRecords, listedRecords_printEntries]

/-- C10: for every catalog and every search term, the records `searchMovie` displays are,
in catalog order, exactly the records whose lower-cased title contains the lower-cased
term as a run of consecutive characters; the empty term displays every record (the lower
case of the empty string being empty); the stored document is not modified. -/
theorem searchMovie_shows_matches (toLowerCase : JSString → JSString) (cat : Catalog)
    (out : List Line) (t : JSString) :
    ∃ shown, searchMovie toLowerCase ⟨.object cat, out⟩ t = .ok ⟨.object cat, out ++ shown⟩ ∧
      listedRecords shown
        = cat.filter (fun m => decide (toLowerCase t <:+: toLowerCase m.title)) ∧
      (∀ m, m ∈ listedRecords shown ↔ m ∈ cat ∧ toLowerCase t <:+: toLowerCase m.title) ∧
      (toLowerCase [] = [] → t = [] → listedRecords shown = cat) := by
  obtain ⟨shown, hs, hl⟩ := searchMovie_object toLowerCase cat out t
  have hl' : listedRecords shown
      = cat.filter (fun m => decide (toLowerCase t <:+: toLowerCase m.title)) := by
    rw [hl]
    apply List.filter_congr
    intro m _
    by_cases hm : toLowerCase t <:+: toLowerCase m.title
    · simp [hm, (includes_iff _ _).mpr hm]
    · have : includes (toLowerCase m.title) (toLowerCase t) = false := by
        rw [← Bool.not_eq_true, includes_iff]
        exact hm
      simp [hm, this]
  refine ⟨shown, hs, hl', ?_, ?_⟩
  · intro m
    rw [hl']
    simp [List.mem_filter]
  · intro h0 ht
    rw [hl', ht, h0]
    simp

theorem searchMovie_shows_matches_witness :
    asciiLower [] = [] ∧ ([] : JSString) = [] ∧
    ∃ shown, searchMovie asciiLower ⟨.object sampleCatalog, []⟩ []
        = .ok ⟨.object sampleCatalog, [] ++ shown⟩ ∧
      listedRecords shown
        = sampleCatalog.filter (fun m => decide (asciiLower [] <:+: asciiLower m.title)) ∧
      (∀ m, m ∈ listedRecords shown ↔
        m ∈ sampleCatalog ∧ asciiLower [] <:+: asciiLower m.title) ∧
      (asciiLower [] = [] → ([] : JSString) = [] → listedRecords shown = sampleCatalog) :=
  ⟨rfl, rfl, searchMovie_shows_matches asciiLower sampleCatalog [] []⟩

/-! ## Filtering by genre -/

theorem filterByGenre_object (toLowerCase : JSString → JSString) (cat : Catalog)
    (out : List Line) (g : JSString) :
    ∃ shown, filterByGenre toLowerCase ⟨.object cat, out⟩ g
        = .ok ⟨.object cat, out ++ shown⟩ ∧
      listedRecords shown = cat.filter fun m =>
        ((splitComma m.genre).map fun p => toLowerCase (trim p)).contains (toLowerCase g) := by
  by_cases h : (cat.filter fun m =>
      ((splitComma m.genre).map fun p => toLowerCase (trim p)).contains
        (toLowerCase g)).length = 0
  · refine ⟨[.text "No movies found in that genre!"], ?_, ?_⟩
    · simp only [filterByGenre, readDB, Document.movies, Document.movies?, World.log, bind,
        Except.bind, pure, Except.pure, h, if_true]
    · rw [List.length_eq_zero.mp h]
      simp [listedRecords]
  · refine ⟨.genreHeading g :: printEntries (cat.filter fun m =>
      ((splitComma m.genre).map fun p => toLowerCase (trim p)).contains (toLowerCase g)),
      ?_, ?_⟩
    · simp only [filterByGenre, readDB, Document.movies, Document.movies?, World.log, bind,
        Except.bind, pure, Except.pure, h, if_false]
    · simp [listedRecords, listedRecords_printEntries]

/-- C5: for every catalog and every genre typed, the records `filterByGenre` displays are,
in catalog order, exactly the records whose genre text, split on commas with each piece
trimmed, has a piece equal to the genre typed once both are lower-cased. -/
theorem filterByGenre_shows_matches (toLowerCase : JSString → JSString) (cat : Catalog)
    (out : List Line) (g : JSString) :
    ∃ shown, filterByGenre toLowerCase ⟨.object cat, out⟩ g
        = .ok ⟨.object cat, out ++ shown⟩ ∧
      listedRecords shown = cat.filter (fun (m : Movie) =>
        decide (∃ piece ∈ splitComma m.genre, toLowerCase (trim piece) = toLowerCase g)) ∧
      (∀ m, m ∈ listedRecords shown ↔
        m ∈ cat ∧ ∃ piece ∈ splitComma m.genre, toLowerCase (trim piece) = toLowerCase g) := by
  obtain ⟨shown, hs, hl⟩ := filterByGenre_object toLowerCase cat out g
  have hl' : listedRecords shown = cat.filter (fun (m : Movie) =>
      decide (∃ piece ∈ splitComma m.genre, toLowerCase (trim piece) = toLowerCase g)) := by
    rw [hl]
    apply List.filter_congr
    intro m _
    rw [Bool.eq_iff_iff]
    simp only [List.contains_iff_exists_mem_beq, List.mem_map, decide_eq_true_eq, beq_iff_eq]
    constructor
    · rintro ⟨x, ⟨p, hp, rfl⟩, hx⟩
      exact ⟨p, hp, hx.symm⟩
    · rintro ⟨p, hp, hx⟩
      exact ⟨_, ⟨p, hp, rfl⟩, hx.symm⟩
  refine ⟨shown, hs, hl', ?_⟩
  intro m
  rw [hl']
  simp [List.mem_filter]


/-! ## Lemmas on rounding -/

theorem bitLengthAux_zero (fuel : Nat) : bitLengthAux fuel 0 = 0 := by
  cases fuel <;> simp [bitLengthAux]

theorem bitLengthAux_bounds (fuel : Nat) :
    ∀ n, n ≤ fuel → n < 2 ^ bitLengthAux fuel n ∧
      (n ≠ 0 → 2 ^ (bitLengthAux fuel n - 1) ≤ n) := by
  induction fuel with
  | zero =>
    intro n hn
    have : n = 0 := by omega
    subst this
    simp [bitLengthAux]
  | succ fuel ih =>
    intro n hn
    by_cases h0 : n = 0
    · subst h0
      simp [bitLengthAux]
    · have hhalf : n / 2 ≤ fuel := by omega
      obtain ⟨hlt, hge⟩ := ih (n / 2) hhalf
      simp only [bitLengthAux, h0, if_false, Nat.add_sub_cancel]
      constructor
      · rw [pow_succ]
        omega
      · intro _
        by_cases h1 : n / 2 = 0
        · rw [h1, bitLengthAux_zero]
          simp
          omega
        · have h2 := hge h1
          have hpos : bitLengthAux fuel (n / 2) ≠ 0 := by
            intro hz
            rw [hz] at hlt
            simp at hlt
            exact h1 hlt
          obtain ⟨b, hb⟩ := Nat.exists_eq_succ_of_ne_zero hpos
          rw [hb] at h2 ⊢
          simp only [Nat.succ_eq_add_one, Nat.add_sub_cancel] at h2
          rw [pow_succ]
          omega

theorem lt_two_pow_bitLength (n : Nat) : n < 2 ^ bitLength n :=
  (bitLengthAux_bounds n n le_rfl).1

theorem two_pow_bitLength_le (n : Nat) (h : n ≠ 0) : 2 ^ (bitLength n - 1) ≤ n :=
  (bitLengthAux_bounds n n le_rfl).2 h

theorem bitLength_pos (n : Nat) (h : n ≠ 0) : 1 ≤ bitLength n := by
  by_contra hc
  have h0 : bitLength n = 0 := by omega
  have := lt_two_pow_bitLength n
  rw [h0] at this
  omega

/-- The quotient of the two powers of two in `shiftUp n k` and `shiftUp n (-k)`. -/
theorem two_pow_toNat_div (k : Int) :
    (2 : ℚ) ^ k.toNat / (2 : ℚ) ^ (-k).toNat = (2 : ℚ) ^ k := by
  rcases le_total 0 k with h | h
  · have h1 : (-k).toNat = 0 := by omega
    rw [h1, pow_zero, div_one]
    conv_rhs => rw [← Int.toNat_of_nonneg h]
    rw [zpow_natCast]
  · have h1 : k.toNat = 0 := by omega
    have h2 : k = -((-k).toNat : Int) := by omega
    rw [h1, pow_zero]
    conv_rhs => rw [h2]
    rw [zpow_neg, zpow_natCast, one_div]

theorem shiftUp_cast (n : Nat) (k : Int) : ((shiftUp n k : Nat) : ℚ) = n * (2 : ℚ) ^ k.toNat := by
  simp [shiftUp]

theorem shiftUp_pos (n : Nat) (k : Int) (h : 1 ≤ n) : 1 ≤ shiftUp n k := by
  unfold shiftUp
  exact Nat.mul_pos h (Nat.pow_pos (by decide))

/-- The comparison of `den * 2 ^ k` with `num`, with natural numbers only. -/
theorem shiftUp_le_iff (num den : Nat) (k : Int) :
    shiftUp den k ≤ shiftUp num (-k) ↔ (den : ℚ) * (2 : ℚ) ^ k ≤ num := by
  rw [← Nat.cast_le (α := ℚ), shiftUp_cast, shiftUp_cast, ← two_pow_toNat_div k]
  have hq : (0 : ℚ) < (2 : ℚ) ^ (-k).toNat := by positivity
  rw [← mul_div_assoc, div_le_iff₀ hq]

theorem floorLog2_le (num den : Nat) (hn : 1 ≤ num) :
    (den : ℚ) * (2 : ℚ) ^ floorLog2 num den ≤ num := by
  unfold floorLog2
  simp only
  split
  · rename_i h
    exact (shiftUp_le_iff num den _).mp h
  · have h1 := lt_two_pow_bitLength den
    have h2 := two_pow_bitLength_le num (by omega)
    have h3 := bitLength_pos num (by omega)
    have h1q : (den : ℚ) ≤ (2 : ℚ) ^ (bitLength den : Int) := by
      rw [zpow_natCast]
      exact_mod_cast h1.le
    have h2q : (2 : ℚ) ^ ((bitLength num : Int) - 1) ≤ (num : ℚ) := by
      have : ((bitLength num : Int) - 1) = ((bitLength num - 1 : Nat) : Int) := by omega
      rw [this, zpow_natCast]
      exact_mod_cast h2
    calc (den : ℚ) * (2 : ℚ) ^ ((bitLength num : Int) - (bitLength den : Int) - 1)
        ≤ (2 : ℚ) ^ (bitLength den : Int)
            * (2 : ℚ) ^ ((bitLength num : Int) - (bitLength den : Int) - 1) := by
          exact mul_le_mul_of_nonneg_right h1q (by positivity)
      _ = (2 : ℚ) ^ ((bitLength num : Int) - 1) := by
          rw [← zpow_add₀ (by norm_num : (2 : ℚ) ≠ 0)]
          congr 1
          ring
      _ ≤ num := h2q

theorem le_roundHalfEven (n d : Nat) : n / d ≤ roundHalfEven n d := by
  unfold roundHalfEven
  simp only
  split_ifs <;> omega

theorem roundDouble_proper (neg : Bool) (num den : Nat) : (roundDouble neg num den).Proper := by
  unfold roundDouble
  simp only
  split_ifs <;> simp [JSNum.Proper]

/-- Rounding does not take a positive number of at least `2 ^ (-1074)` to zero, and keeps
its sign. -/
theorem roundDouble_isPositive (neg : Bool) (num den : Nat) (hn : 1 ≤ num) (hd : 1 ≤ den)
    (hv : (den : ℚ) * (2 : ℚ) ^ (-1074 : Int) ≤ num) :
    (roundDouble neg num den).isPositive = !neg := by
  have hfl := floorLog2_le num den hn
  have he : (den : ℚ) * (2 : ℚ) ^ (max (floorLog2 num den - 52) (-1074)) ≤ num := by
    rcases max_choice (floorLog2 num den - 52) (-1074) with h | h
    · rw [h]
      refine le_trans (mul_le_mul_of_nonneg_left ?_ (by positivity)) hfl
      exact zpow_le_zpow_right₀ (by norm_num) (by omega)
    · rw [h]
      exact hv
  have hle := (shiftUp_le_iff num den _).mpr he
  have hden := shiftUp_pos den (max (floorLog2 num den - 52) (-1074)) hd
  have hm : 1 ≤ roundHalfEven (shiftUp num (-(max (floorLog2 num den - 52) (-1074))))
      (shiftUp den (max (floorLog2 num den - 52) (-1074))) :=
    le_trans ((Nat.one_le_div_iff (by omega)).mpr hle) (le_roundHalfEven _ _)
  unfold roundDouble
  have hn0 : num ≠ 0 := by omega
  simp only [hn0, if_false]
  split
  · rfl
  · cases neg
    · simp [JSNum.isPositive]
      omega
    · simp [JSNum.isPositive]

theorem roundDouble_not_isPositive (num den : Nat) :
    (roundDouble true num den).isPositive = false := by
  unfold roundDouble
  simp only
  split_ifs <;> simp [JSNum.isPositive]

theorem roundDyadic_proper (m e : Int) : (roundDyadic m e).Proper :=
  roundDouble_proper _ _ _

/-- The sign of the rounded `m * 2 ^ e` is the sign of `m`. -/
theorem roundDyadic_isPositive (m e : Int) (he : -1074 ≤ e) :
    (roundDyadic m e).isPositive = decide (0 < m) := by
  unfold roundDyadic
  rcases lt_trichotomy m 0 with h | h | h
  · have h1 : decide (m < 0) = true := by simpa using h
    have h2 : decide (0 < m) = false := by simpa using h.le
    rw [h1, h2]
    exact roundDouble_not_isPositive _ _
  · subst h
    simp [roundDouble, shiftUp, JSNum.isPositive]
  · have h1 : decide (m < 0) = false := by simpa using h.le
    have h2 : decide (0 < m) = true := by simpa using h
    rw [h1, h2]
    have habs : 1 ≤ m.natAbs := by omega
    refine roundDouble_isPositive false _ _ (shiftUp_pos _ _ habs) (shiftUp_pos _ _ le_rfl) ?_
    rw [shiftUp_cast, shiftUp_cast]
    have hq : (0 : ℚ) < (2 : ℚ) ^ (-e).toNat := by positivity
    have h3 : (2 : ℚ) ^ (-1074 : Int) ≤ (2 : ℚ) ^ e := zpow_le_zpow_right₀ (by norm_num) he
    have h4 : (2 : ℚ) ^ e.toNat = (2 : ℚ) ^ e * (2 : ℚ) ^ (-e).toNat := by
      rw [← two_pow_toNat_div e, div_mul_cancel₀ _ hq.ne']
    have h5 : (1 : ℚ) ≤ (m.natAbs : ℚ) := by exact_mod_cast habs
    rw [h4]
    have h6 : (0 : ℚ) < (2 : ℚ) ^ e := by positivity
    calc ((1 : Nat) : ℚ) * (2 : ℚ) ^ (-e).toNat * (2 : ℚ) ^ (-1074 : Int)
        = (2 : ℚ) ^ (-e).toNat * (2 : ℚ) ^ (-1074 : Int) := by simp
      _ ≤ (2 : ℚ) ^ (-e).toNat * (2 : ℚ) ^ e := mul_le_mul_of_nonneg_left h3 hq.le
      _ = 1 * ((2 : ℚ) ^ e * (2 : ℚ) ^ (-e).toNat) := by ring
      _ ≤ (m.natAbs : ℚ) * ((2 : ℚ) ^ e * (2 : ℚ) ^ (-e).toNat) :=
          mul_le_mul_of_nonneg_right h5 (by positivity)


/-! ## Lemmas on the coercion and the comparison of numbers -/

theorem parseUnsigned_proper (neg : Bool) (s : JSString) :
    parseUnsigned neg s = .nan ∨ (parseUnsigned neg s).Proper := by
  unfold parseUnsigned
  split
  · right
    trivial
  · split
    · right
      exact roundDouble_proper _ _ _
    · left
      rfl

theorem toNumber_proper (s : JSString) : toNumber s = .nan ∨ (toNumber s).Proper := by
  unfold toNumber
  split
  · right
    simp [JSNum.Proper]
  all_goals first
    | exact parseUnsigned_proper _ _
    | (split
       · right
         exact roundDouble_proper _ _ _
       · left
         rfl)

theorem alignedSum_cast (m1 e1 m2 e2 : Int) :
    ((alignedSum m1 e1 m2 e2 : Int) : ℚ) * (2 : ℚ) ^ (min e1 e2)
      = (m1 : ℚ) * (2 : ℚ) ^ e1 + (m2 : ℚ) * (2 : ℚ) ^ e2 := by
  unfold alignedSum
  have h1 : ((e1 - min e1 e2).toNat : Int) = e1 - min e1 e2 :=
    Int.toNat_of_nonneg (by have := min_le_left e1 e2; omega)
  have h2 : ((e2 - min e1 e2).toNat : Int) = e2 - min e1 e2 :=
    Int.toNat_of_nonneg (by have := min_le_right e1 e2; omega)
  push_cast
  rw [← zpow_natCast (2 : ℚ) (e1 - min e1 e2).toNat, ← zpow_natCast (2 : ℚ) (e2 - min e1 e2).toNat,
    h1, h2, add_mul, mul_assoc, mul_assoc, ← zpow_add₀ (by norm_num : (2 : ℚ) ≠ 0),
    ← zpow_add₀ (by norm_num : (2 : ℚ) ≠ 0)]
  simp

/-- The exact comparison of two finite numbers is the comparison of their values. -/
theorem fin_le_iff (m1 e1 m2 e2 : Int) :
    (JSNum.fin m1 e1).le (JSNum.fin m2 e2) = true
      ↔ (m1 : ℚ) * (2 : ℚ) ^ e1 ≤ (m2 : ℚ) * (2 : ℚ) ^ e2 := by
  have h := alignedSum_cast m1 e1 (-m2) e2
  have hp : (0 : ℚ) < (2 : ℚ) ^ (min e1 e2) := by positivity
  simp only [JSNum.le, decide_eq_true_eq]
  constructor
  · intro hle
    have : ((alignedSum m1 e1 (-m2) e2 : Int) : ℚ) * (2 : ℚ) ^ (min e1 e2) ≤ 0 :=
      mul_nonpos_of_nonpos_of_nonneg (by exact_mod_cast hle) hp.le
    rw [h] at this
    push_cast at this
    linarith
  · intro hle
    by_contra hc
    have hpos : (0 : ℚ) < ((alignedSum m1 e1 (-m2) e2 : Int) : ℚ) := by
      exact_mod_cast not_le.mp hc
    have := mul_pos hpos hp
    rw [h] at this
    push_cast at this
    linarith

theorem numLe_total (x y : JSNum) (hx : x ≠ .nan) (hy : y ≠ .nan) :
    x.le y = true ∨ y.le x = true := by
  cases x with
  | nan => exact absurd rfl hx
  | inf a =>
    cases y with
    | nan => exact absurd rfl hy
    | inf b => cases a <;> cases b <;> simp [JSNum.le]
    | fin m e => cases a <;> simp [JSNum.le]
  | fin m1 e1 =>
    cases y with
    | nan => exact absurd rfl hy
    | inf b => cases b <;> simp [JSNum.le]
    | fin m2 e2 =>
      rw [fin_le_iff, fin_le_iff]
      exact le_total _ _

theorem numLe_trans (x y z : JSNum) (h1 : x.le y = true) (h2 : y.le z = true) :
    x.le z = true := by
  cases x with
  | nan => simp [JSNum.le] at h1
  | inf a =>
    cases y with
    | nan => simp [JSNum.le] at h1
    | inf b =>
      cases z with
      | nan => simp [JSNum.le] at h2
      | inf c => cases a <;> cases b <;> cases c <;> simp_all [JSNum.le]
      | fin m e => cases a <;> cases b <;> simp_all [JSNum.le]
    | fin m e =>
      cases z with
      | nan => simp [JSNum.le] at h2
      | inf c => cases a <;> cases c <;> simp_all [JSNum.le]
      | fin m3 e3 => cases a <;> simp_all [JSNum.le]
  | fin m1 e1 =>
    cases y with
    | nan => simp [JSNum.le] at h1
    | inf b =>
      cases z with
      | nan => simp [JSNum.le] at h2
      | inf c => cases b <;> cases c <;> simp_all [JSNum.le]
      | fin m e => cases b <;> simp_all [JSNum.le]
    | fin m2 e2 =>
      cases z with
      | nan => simp [JSNum.le] at h2
      | inf c => cases c <;> simp_all [JSNum.le]
      | fin m3 e3 =>
        rw [fin_le_iff] at h1 h2 ⊢
        exact le_trans h1 h2

/-- The difference `x - y` is above 0 exactly when `x ≤ y` fails. -/
theorem sub_isPositive (x y : JSNum) (hx : x.Proper) (hy : y.Proper) :
    (x.sub y).isPositive = !(x.le y) := by
  cases x with
  | nan => exact absurd hx (by simp [JSNum.Proper])
  | inf a =>
    cases y with
    | nan => exact absurd hy (by simp [JSNum.Proper])
    | inf b => cases a <;> cases b <;> simp [JSNum.sub, JSNum.le, JSNum.isPositive]
    | fin m e => cases a <;> simp [JSNum.sub, JSNum.le, JSNum.isPositive]
  | fin m1 e1 =>
    cases y with
    | nan => exact absurd hy (by simp [JSNum.Proper])
    | inf b => cases b <;> simp [JSNum.sub, JSNum.le, JSNum.isPositive]
    | fin m2 e2 =>
      have he : -1074 ≤ min e1 e2 := le_min hx hy
      simp only [JSNum.sub, JSNum.le]
      rw [roundDyadic_isPositive _ _ he]
      by_cases h : alignedSum m1 e1 (-m2) e2 ≤ 0
      · simp [h, not_lt.mpr h]
      · simp [h, not_le.mp h]


/-! ## Lemmas on the sort -/

theorem insertSorted_perm (comparefn : Movie → Movie → JSNum) (a : Movie) (l : List Movie) :
    (insertSorted comparefn a l).Perm (a :: l) := by
  induction l with
  | nil => exact List.Perm.refl _
  | cons b l ih =>
    unfold insertSorted
    split
    · exact (List.Perm.cons b ih).trans (List.Perm.swap a b l)
    · exact List.Perm.refl _

theorem arraySort_perm (comparefn : Movie → Movie → JSNum) (l : List Movie) :
    (arraySort comparefn l).Perm l := by
  induction l with
  | nil => exact List.Perm.refl _
  | cons a l ih =>
    unfold arraySort
    exact (insertSorted_perm comparefn a _).trans (List.Perm.cons a ih)

/-- Insertion keeps the list ordered for a relation `R` that the comparator decides on
the records at hand and that is transitive from the inserted record on. -/
theorem insertSorted_pairwise (comparefn : Movie → Movie → JSNum) (R : Movie → Movie → Prop)
    (a : Movie) (l : List Movie)
    (hafter : ∀ b ∈ l, (comparefn a b).isPositive = true → R b a)
    (hbefore : ∀ b ∈ l, (comparefn a b).isPositive = false → R a b)
    (htrans : ∀ b ∈ l, ∀ c ∈ l, R a b → R b c → R a c)
    (hl : l.Pairwise R) : (insertSorted comparefn a l).Pairwise R := by
  induction l with
  | nil => simp [insertSorted]
  | cons b l ih =>
    have hb := List.pairwise_cons.mp hl
    unfold insertSorted
    split
    · rename_i hpos
      refine List.pairwise_cons.mpr ⟨?_, ?_⟩
      · intro x hx
        rcases (List.mem_cons.mp ((insertSorted_perm comparefn a l).mem_iff.mp hx)) with h | h
        · rw [h]
          exact hafter b (List.mem_cons_self _ _) hpos
        · exact hb.1 x h
      · exact ih (fun c hc => hafter c (List.mem_cons_of_mem _ hc))
          (fun c hc => hbefore c (List.mem_cons_of_mem _ hc))
          (fun c hc d hd => htrans c (List.mem_cons_of_mem _ hc) d (List.mem_cons_of_mem _ hd))
          hb.2
    · rename_i hpos
      have hab : R a b := hbefore b (List.mem_cons_self _ _) (by simpa using hpos)
      refine List.pairwise_cons.mpr ⟨?_, hl⟩
      intro x hx
      rcases List.mem_cons.mp hx with h | h
      · rw [h]
        exact hab
      · exact htrans b (List.mem_cons_self _ _) x (List.mem_cons_of_mem _ h) hab (hb.1 x h)

/-- Insertion does not move the inserted record past a record of its own class `p`, when
the comparator is never above 0 inside the class. -/
theorem insertSorted_filter (comparefn : Movie → Movie → JSNum) (p : Movie → Bool)
    (a : Movie) (l : List Movie)
    (h : ∀ b ∈ l, p a = true → p b = true → (comparefn a b).isPositive = false) :
    (insertSorted comparefn a l).filter p = (a :: l).filter p := by
  induction l with
  | nil => simp [insertSorted]
  | cons b l ih =>
    have ih' := ih fun c hc => h c (List.mem_cons_of_mem _ hc)
    unfold insertSorted
    split
    · rename_i hpos
      have hnot : ¬ (p a = true ∧ p b = true) := by
        rintro ⟨ha, hb⟩
        rw [h b (List.mem_cons_self _ _) ha hb] at hpos
        exact Bool.false_ne_true hpos
      rw [List.filter_cons, ih']
      by_cases ha : p a = true <;> by_cases hb : p b = true
      · exact absurd ⟨ha, hb⟩ hnot
      · simp [List.filter_cons, ha, hb]
      · simp [List.filter_cons, ha, hb]
      · simp [List.filter_cons, ha, hb]
    · rfl

theorem arraySort_filter (comparefn : Movie → Movie → JSNum) (p : Movie → Bool)
    (l : List Movie)
    (h : ∀ a ∈ l, ∀ b ∈ l, p a = true → p b = true → (comparefn a b).isPositive = false) :
    (arraySort comparefn l).filter p = l.filter p := by
  induction l with
  | nil => rfl
  | cons a l ih =>
    have ih' := ih fun x hx y hy => h x (List.mem_cons_of_mem _ hx) y (List.mem_cons_of_mem _ hy)
    unfold arraySort
    rw [insertSorted_filter comparefn p a _ (fun b hb =>
      h a (List.mem_cons_self _ _) b
        (List.mem_cons_of_mem _ ((arraySort_perm comparefn l).mem_iff.mp hb)))]
    rw [List.filter_cons, List.filter_cons, ih']


/-! ## Sorting by rating -/

theorem rankedRecords_enumFrom (ms : List Movie) (k : Nat) :
    rankedRecords ((ms.enumFrom k).map fun p => rankedLines p.1 p.2).flatten
      = ms.map fun m => (m.title, m.rating, m.genre) := by
  induction ms generalizing k with
  | nil => simp [rankedRecords]
  | cons m ms ih =>
    simp only [List.enumFrom_cons, List.map_cons, List.flatten_cons, rankedLines,
      List.cons_append, List.nil_append, rankedRecords]
    exact congrArg (_ :: ·) (ih (k + 1))

theorem sortByRating_object (cat : Catalog) (out : List Line) :
    sortByRating ⟨.object cat, out⟩
      = .ok ⟨.object cat, out ++ .text "\nMovies sorted by rating (highest to lowest):" ::
          (((arraySort compareRating cat).enum.map fun p => rankedLines p.1 p.2).flatten)⟩ := by
  simp [sortByRating, readDB, Document.movies, Document.movies?, World.log, bind, Except.bind,
    pure, Except.pure]

theorem compareRating_isPositive (a b : Movie) (ha : toNumber a.rating ≠ .nan)
    (hb : toNumber b.rating ≠ .nan) :
    (compareRating a b).isPositive = !((toNumber b.rating).le (toNumber a.rating)) := by
  unfold compareRating
  exact sub_isPositive _ _ ((toNumber_proper b.rating).resolve_left hb)
    ((toNumber_proper a.rating).resolve_left ha)

theorem arraySort_compareRating_pairwise (l : List Movie)
    (hnum : ∀ m ∈ l, toNumber m.rating ≠ .nan) :
    (arraySort compareRating l).Pairwise
      (fun a b => (toNumber b.rating).le (toNumber a.rating) = true) := by
  induction l with
  | nil => exact List.Pairwise.nil
  | cons a l ih =>
    have ha := hnum a (List.mem_cons_self _ _)
    have hl : ∀ b ∈ arraySort compareRating l, toNumber b.rating ≠ .nan := fun b hb =>
      hnum b (List.mem_cons_of_mem _ ((arraySort_perm compareRating l).mem_iff.mp hb))
    unfold arraySort
    refine insertSorted_pairwise compareRating _ a _ ?_ ?_ ?_
      (ih fun m hm => hnum m (List.mem_cons_of_mem _ hm))
    · intro b hb hpos
      rw [compareRating_isPositive a b ha (hl b hb)] at hpos
      rcases numLe_total (toNumber a.rating) (toNumber b.rating) ha (hl b hb) with h | h
      · exact h
      · rw [h] at hpos
        exact absurd hpos (by decide)
    · intro b hb hpos
      rw [compareRating_isPositive a b ha (hl b hb)] at hpos
      simpa using hpos
    · intro b _ c _ hab hbc
      exact numLe_trans _ _ _ hbc hab

theorem arraySort_compareRating_stable (l : List Movie) (x : JSNum) :
    (arraySort compareRating l).filter (sameRating x) = l.filter (sameRating x) := by
  refine arraySort_filter compareRating (sameRating x) l ?_
  intro a _ b _ ha hb
  simp only [sameRating, Bool.and_eq_true] at ha hb
  have hna : toNumber a.rating ≠ .nan := by
    intro h
    rw [h] at ha
    simp [JSNum.le] at ha
  have hnb : toNumber b.rating ≠ .nan := by
    intro h
    rw [h] at hb
    simp [JSNum.le] at hb
  rw [compareRating_isPositive a b hna hnb, numLe_trans _ _ _ hb.1 ha.2]
  rfl

/-- C9: for every catalog whose ratings all coerce to numbers (none is `NaN`),
`sortByRating` displays a permutation of the catalog in which the rating of every earlier
record is at least the rating of every later one, the records of one rating value are in
their catalog order, and the stored document is not changed. -/
theorem sortByRating_descending_stable (cat : Catalog) (out : List Line)
    (hnum : ∀ m ∈ cat, toNumber m.rating ≠ .nan) :
    ∃ (sorted : List Movie) (shown : List Line), sortByRating ⟨.object cat, out⟩ = .ok ⟨.object cat, out ++ shown⟩ ∧
      rankedRecords shown = sorted.map (fun m => (m.title, m.rating, m.genre)) ∧
      sorted.Perm cat ∧
      sorted.Pairwise (fun a b => (toNumber b.rating).le (toNumber a.rating) = true) ∧
      ∀ x : JSNum, sorted.filter (sameRating x) = cat.filter (sameRating x) := by
  refine ⟨arraySort compareRating cat, _, sortByRating_object cat out, ?_,
    arraySort_perm compareRating cat, arraySort_compareRating_pairwise cat hnum,
    arraySort_compareRating_stable cat⟩
  simp only [rankedRecords]
  exact rankedRecords_enumFrom _ 0

theorem sortByRating_descending_stable_witness :
    (∀ m ∈ sampleCatalog, toNumber m.rating ≠ .nan) ∧
    ∃ (sorted : List Movie) (shown : List Line),
      sortByRating ⟨.object sampleCatalog, []⟩ = .ok ⟨.object sampleCatalog, [] ++ shown⟩ ∧
      rankedRecords shown = sorted.map (fun m => (m.title, m.rating, m.genre)) ∧
      sorted.Perm sampleCatalog ∧
      sorted.Pairwise (fun a b => (toNumber b.rating).le (toNumber a.rating) = true) ∧
      ∀ x : JSNum, sorted.filter (sameRating x) = sampleCatalog.filter (sameRating x) :=
  ⟨by decide, sortByRating_descending_stable sampleCatalog [] (by decide)⟩


/-! ## Statistics -/

theorem showStats_object (cat : Catalog) (out : List Line) :
    showStats ⟨.object cat, out⟩
      = .ok ⟨.object cat, out ++ [.text "\nDatabase Statistics:", .total cat.length,
          .average (toFixed2 (meanRating cat)),
          .genres (cat.map fun movie => movie.genre).eraseDups]⟩ := by
  simp [showStats, meanRating, sumRatings, readDB, Document.movies, Document.movies?,
    World.log, bind, Except.bind, pure, Except.pure]

theorem meanRating_nil : meanRating [] = .nan := by
  simp [meanRating, sumRatings, JSNum.divLength]

/-- The magnitude of `m * 2 ^ e` as the quotient of the two natural numbers `toFixed2`
computes with. -/
theorem shiftUp_natAbs_div (m e : Int) :
    ((shiftUp m.natAbs e : Nat) : ℚ) / ((shiftUp 1 (-e) : Nat) : ℚ)
      = |(m : ℚ) * (2 : ℚ) ^ e| := by
  rw [shiftUp_cast, shiftUp_cast, Nat.cast_one, one_mul, mul_div_assoc, two_pow_toNat_div,
    abs_mul, abs_of_pos (by positivity : (0 : ℚ) < (2 : ℚ) ^ e), Nat.cast_natAbs, Int.cast_abs]

/-- What `toFixed(2)` returns: `NaN` and the infinities as they are, a finite number of
magnitude `10 ^ 21` or more as it is, and otherwise the sign of the number with a number
of hundredths within `0.005` of its magnitude. -/
theorem toFixed2_spec (x : JSNum) :
    match x with
    | .nan => toFixed2 x = .nan
    | .inf neg => toFixed2 x = .infinity neg
    | .fin m e =>
      ((10 : ℚ) ^ 21 ≤ |(m : ℚ) * (2 : ℚ) ^ e| ∧ toFixed2 x = .large (.fin m e)) ∨
      (|(m : ℚ) * (2 : ℚ) ^ e| < (10 : ℚ) ^ 21 ∧
        ∃ n : Nat, toFixed2 x = .decimal (decide (m < 0)) n ∧
          |(n : ℚ) / 100 - abs ((m : ℚ) * (2 : ℚ) ^ e)| ≤ 1 / 200) := by
  cases x with
  | nan => rfl
  | inf neg => rfl
  | fin m e =>
    have hden : 1 ≤ shiftUp 1 (-e) := shiftUp_pos 1 (-e) le_rfl
    have hdq : (0 : ℚ) < ((shiftUp 1 (-e) : Nat) : ℚ) := by exact_mod_cast hden
    have hv := shiftUp_natAbs_div m e
    simp only [toFixed2]
    by_cases hbig : 10 ^ 21 * shiftUp 1 (-e) ≤ shiftUp m.natAbs e
    · left
      refine ⟨?_, if_pos hbig⟩
      rw [← hv, le_div_iff₀ hdq]
      exact_mod_cast hbig
    · right
      refine ⟨?_, (200 * shiftUp m.natAbs e + shiftUp 1 (-e)) / (2 * shiftUp 1 (-e)),
        if_neg hbig, ?_⟩
      · rw [← hv, div_lt_iff₀ hdq]
        exact_mod_cast not_le.mp hbig
      · rw [← hv]
        set num := shiftUp m.natAbs e
        set den := shiftUp 1 (-e)
        have h1 := Nat.div_add_mod (200 * num + den) (2 * den)
        have h2 := Nat.mod_lt (200 * num + den) (show 0 < 2 * den by omega)
        have h1q : (2 : ℚ) * den * ((200 * num + den) / (2 * den) : Nat)
            + ((200 * num + den) % (2 * den) : Nat) = 200 * num + den := by
          exact_mod_cast h1
        have h2q : (((200 * num + den) % (2 * den) : Nat) : ℚ) < 2 * den := by
          exact_mod_cast h2
        have h3q : (0 : ℚ) ≤ (((200 * num + den) % (2 * den) : Nat) : ℚ) := Nat.cast_nonneg _
        have hnq : ((num : ℚ)) / den = ((100 * num : ℚ)) / (100 * den) := by
          rw [mul_div_mul_left _ _ (by norm_num : (100 : ℚ) ≠ 0)]
        have hnn : (((200 * num + den) / (2 * den) : Nat) : ℚ) / 100
            = ((((200 * num + den) / (2 * den) : Nat) : ℚ) * den) / (100 * den) := by
          field_simp
          ring
        have h100 : (0 : ℚ) < 100 * den := by positivity
        rw [hnq, hnn, ← sub_div, abs_le, le_div_iff₀ h100, div_le_iff₀ h100]
        constructor <;> nlinarith


/-! ## The error of rounding -/

theorem roundHalfEven_error (n d : Nat) (hd : 1 ≤ d) :
    |((roundHalfEven n d : Nat) : ℚ) - (n : ℚ) / d| ≤ 1 / 2 := by
  have hdq : (0 : ℚ) < d := by exact_mod_cast hd
  have h1 : ((d * (n / d) + n % d : Nat) : ℚ) = n := by exact_mod_cast Nat.div_add_mod n d
  push_cast at h1
  have h2 : ((n % d : Nat) : ℚ) < d := by exact_mod_cast Nat.mod_lt n hd
  have h3 : (0 : ℚ) ≤ ((n % d : Nat) : ℚ) := Nat.cast_nonneg _
  have hn : (n : ℚ) / d = ((n / d : Nat) : ℚ) + ((n % d : Nat) : ℚ) / d := by
    field_simp
    linarith
  unfold roundHalfEven
  simp only
  rw [hn, abs_le]
  split_ifs with c1 c2 c3
  · have c1q : (2 : ℚ) * ((n % d : Nat) : ℚ) < d := by exact_mod_cast c1
    have : ((n % d : Nat) : ℚ) / d < 1 / 2 := by
      rw [div_lt_iff₀ hdq]
      linarith
    have : (0 : ℚ) ≤ ((n % d : Nat) : ℚ) / d := by positivity
    constructor <;> linarith
  · have c2q : (d : ℚ) < 2 * ((n % d : Nat) : ℚ) := by exact_mod_cast c2
    have : (1 : ℚ) / 2 < ((n % d : Nat) : ℚ) / d := by
      rw [lt_div_iff₀ hdq]
      linarith
    have : ((n % d : Nat) : ℚ) / d < 1 := by
      rw [div_lt_one hdq]
      exact h2
    push_cast
    constructor <;> linarith
  · have heq : (d : ℚ) = 2 * ((n % d : Nat) : ℚ) := by
      have : d = 2 * (n % d) := by omega
      exact_mod_cast this
    have : ((n % d : Nat) : ℚ) / d = 1 / 2 := by
      rw [div_eq_iff hdq.ne']
      linarith
    constructor <;> linarith
  · have heq : (d : ℚ) = 2 * ((n % d : Nat) : ℚ) := by
      have : d = 2 * (n % d) := by omega
      exact_mod_cast this
    have : ((n % d : Nat) : ℚ) / d = 1 / 2 := by
      rw [div_eq_iff hdq.ne']
      linarith
    push_cast
    constructor <;> linarith

theorem roundHalfEven_exact (n d : Nat) (hd : 1 ≤ d) (h : d ∣ n) :
    ((roundHalfEven n d : Nat) : ℚ) = (n : ℚ) / d := by
  have hmod : n % d = 0 := Nat.mod_eq_zero_of_dvd h
  unfold roundHalfEven
  simp only [hmod, Nat.mul_zero]
  rw [if_pos (by omega)]
  rw [Nat.cast_div h (by exact_mod_cast (by omega : d ≠ 0))]

theorem shiftUp_div_cast (num den : Nat) (e : Int) (hd : 1 ≤ den) :
    ((shiftUp num (-e) : Nat) : ℚ) / ((shiftUp den e : Nat) : ℚ)
      = (num : ℚ) / den / (2 : ℚ) ^ e := by
  have hdq : (0 : ℚ) < den := by exact_mod_cast hd
  have h := two_pow_toNat_div e
  have hp : (0 : ℚ) < (2 : ℚ) ^ e.toNat := by positivity
  have hq : (0 : ℚ) < (2 : ℚ) ^ (-e).toNat := by positivity
  rw [shiftUp_cast, shiftUp_cast, ← h]
  field_simp

/-- Rounding a positive rational below `2 ^ 1000` gives a finite number; the error is at
most the fraction `2 ^ (-53)` of the rational plus `2 ^ (-1075)`, and the latter term is
not needed for a multiple of `2 ^ (-1074)`. -/
theorem roundDouble_error (num den : Nat) (hn : 1 ≤ num) (hd : 1 ≤ den)
    (hbig : (num : ℚ) / den < (2 : ℚ) ^ (1000 : Int)) :
    ∃ m : Nat, ∃ e : Int, roundDouble false num den = .fin (m : Int) e ∧ -1074 ≤ e ∧
      |(m : ℚ) * (2 : ℚ) ^ e - (num : ℚ) / den|
        ≤ (num : ℚ) / den / 2 ^ 53 + 1 / 2 ^ 1075 ∧
      (den ∣ num * 2 ^ 1074 →
        |(m : ℚ) * (2 : ℚ) ^ e - (num : ℚ) / den| ≤ (num : ℚ) / den / 2 ^ 53) := by
  have hdq : (0 : ℚ) < den := by exact_mod_cast hd
  have hq0 : (0 : ℚ) < (num : ℚ) / den := by
    have : (0 : ℚ) < num := by exact_mod_cast hn
    positivity
  have hfl : (2 : ℚ) ^ floorLog2 num den ≤ (num : ℚ) / den := by
    rw [le_div_iff₀ hdq, mul_comm]
    exact floorLog2_le num den hn
  have hf : floorLog2 num den < 1000 := by
    by_contra hc
    have : (2 : ℚ) ^ (1000 : Int) ≤ (2 : ℚ) ^ floorLog2 num den :=
      zpow_le_zpow_right₀ (by norm_num) (not_lt.mp hc)
    linarith
  generalize hfdef : floorLog2 num den = f at hfl hf
  obtain ⟨e, hedef⟩ : ∃ e : Int, e = max (f - 52) (-1074) := ⟨_, rfl⟩
  have he1 : -1074 ≤ e := by rw [hedef]; exact le_max_right _ _
  have he2 : e ≤ 948 := by
    rw [hedef]
    exact max_le (by omega) (by omega)
  have hDn : 1 ≤ shiftUp den e := shiftUp_pos den e hd
  have hpe : (0 : ℚ) < (2 : ℚ) ^ e := by positivity
  have hratio := shiftUp_div_cast num den e hd
  have herr := roundHalfEven_error (shiftUp num (-e)) (shiftUp den e) hDn
  rw [hratio] at herr
  have hscaled : |((roundHalfEven (shiftUp num (-e)) (shiftUp den e) : Nat) : ℚ) * (2 : ℚ) ^ e
      - (num : ℚ) / den| ≤ (2 : ℚ) ^ e / 2 := by
    have : ((roundHalfEven (shiftUp num (-e)) (shiftUp den e) : Nat) : ℚ) * (2 : ℚ) ^ e
        - (num : ℚ) / den
        = (((roundHalfEven (shiftUp num (-e)) (shiftUp den e) : Nat) : ℚ)
            - (num : ℚ) / den / (2 : ℚ) ^ e) * (2 : ℚ) ^ e := by
      field_simp
      ring
    rw [this, abs_mul, abs_of_pos hpe]
    calc _ ≤ 1 / 2 * (2 : ℚ) ^ e := mul_le_mul_of_nonneg_right herr hpe.le
      _ = (2 : ℚ) ^ e / 2 := by ring
  refine ⟨roundHalfEven (shiftUp num (-e)) (shiftUp den e), e, ?_, he1, ?_, ?_⟩
  · unfold roundDouble
    have hn0 : num ≠ 0 := by omega
    simp only [hn0, if_false, hfdef, ← hedef]
    rw [if_neg (by omega)]
    simp
  · rcases max_choice (f - 52) (-1074) with h | h
    · have h2e : (2 : ℚ) ^ e / 2 = (2 : ℚ) ^ f / 2 ^ 53 := by
        rw [hedef, h, zpow_sub₀ (by norm_num : (2 : ℚ) ≠ 0)]
        norm_num
        ring
      have : (2 : ℚ) ^ f / 2 ^ 53 ≤ (num : ℚ) / den / 2 ^ 53 :=
        div_le_div_of_nonneg_right hfl (by positivity)
      have h1075 : (0 : ℚ) ≤ 1 / 2 ^ 1075 := by positivity
      linarith
    · have h2e : (2 : ℚ) ^ e / 2 = 1 / 2 ^ 1075 := by
        rw [hedef, h]
        rw [zpow_neg]
        norm_num
      have : (0 : ℚ) ≤ (num : ℚ) / den / 2 ^ 53 := by positivity
      linarith
  · intro hdvd
    rcases max_choice (f - 52) (-1074) with h | h
    · have h2e : (2 : ℚ) ^ e / 2 = (2 : ℚ) ^ f / 2 ^ 53 := by
        rw [hedef, h, zpow_sub₀ (by norm_num : (2 : ℚ) ≠ 0)]
        norm_num
        ring
      have : (2 : ℚ) ^ f / 2 ^ 53 ≤ (num : ℚ) / den / 2 ^ 53 :=
        div_le_div_of_nonneg_right hfl (by positivity)
      linarith
    · have he : e = -1074 := by rw [hedef, h]
      have hdvd' : shiftUp den e ∣ shiftUp num (-e) := by
        have h1 : (-1074 : Int).toNat = 0 := rfl
        have h2 : (-(-1074 : Int)).toNat = 1074 := rfl
        rw [he]
        unfold shiftUp
        rw [h1, h2, pow_zero, mul_one]
        exact hdvd
      have hex := roundHalfEven_exact _ _ hDn hdvd'
      rw [hratio] at hex
      rw [hex, div_mul_cancel₀ _ hpe.ne', sub_self, abs_zero]
      positivity

/-! ## The error of the sum and of the quotient -/

theorem nonnegValue_nonneg (x : JSNum) (v : ℚ) (h : x.NonnegValue v) : 0 ≤ v := by
  obtain ⟨m, e, -, -, rfl⟩ := h
  positivity

theorem nonnegValue_zero : (JSNum.fin 0 0).NonnegValue 0 :=
  ⟨0, 0, rfl, by decide, by simp⟩

theorem shiftUp_one_dvd (e : Int) (he : -1074 ≤ e) (num : Nat) :
    shiftUp 1 (-e) ∣ num * 2 ^ 1074 := by
  unfold shiftUp
  rw [one_mul]
  exact Dvd.dvd.mul_left (pow_dvd_pow 2 (by omega)) num

/-- The double sum of two non-negative numbers is within the fraction `2 ^ (-53)` of
their exact sum. -/
theorem add_error (a b : JSNum) (va vb : ℚ) (ha : a.NonnegValue va) (hb : b.NonnegValue vb)
    (hbig : va + vb < (2 : ℚ) ^ (1000 : Int)) :
    ∃ v, (a.add b).NonnegValue v ∧ |v - (va + vb)| ≤ (va + vb) / 2 ^ 53 := by
  obtain ⟨m1, e1, rfl, he1, rfl⟩ := ha
  obtain ⟨m2, e2, rfl, he2, rfl⟩ := hb
  have he0 : -1074 ≤ min e1 e2 := le_min he1 he2
  have hD : 0 ≤ alignedSum m1 e1 m2 e2 := by
    unfold alignedSum
    positivity
  have hneg : decide (alignedSum m1 e1 m2 e2 < 0) = false := by simpa using hD
  have hval := shiftUp_natAbs_div (alignedSum m1 e1 m2 e2) (min e1 e2)
  have hcast := alignedSum_cast m1 e1 m2 e2
  rw [abs_of_nonneg (by positivity), hcast] at hval
  simp only [Int.cast_natCast] at hval
  simp only [JSNum.add, roundDyadic, hneg]
  by_cases h0 : shiftUp (alignedSum m1 e1 m2 e2).natAbs (min e1 e2) = 0
  · refine ⟨0, ?_, ?_⟩
    · rw [h0]
      simpa [roundDouble] using nonnegValue_zero
    · rw [h0] at hval
      simp only [Nat.cast_zero, zero_div] at hval
      rw [← hval]
      simp
  · have hden : 1 ≤ shiftUp 1 (-(min e1 e2)) := shiftUp_pos 1 _ le_rfl
    obtain ⟨m, e, hr, he, -, herr⟩ := roundDouble_error _ _ (Nat.one_le_iff_ne_zero.mpr h0)
      hden (by rw [hval]; exact hbig)
    refine ⟨(m : ℚ) * (2 : ℚ) ^ e, ⟨m, e, hr, he, rfl⟩, ?_⟩
    have := herr (shiftUp_one_dvd _ he0 _)
    rwa [hval] at this

/-- The double quotient of a non-negative number by a positive length is within the
fraction `2 ^ (-53)` of the exact quotient, plus `2 ^ (-1075)`. -/
theorem divLength_error (s : JSNum) (vs : ℚ) (k : Nat) (hs : s.NonnegValue vs) (hk : 1 ≤ k)
    (hbig : vs < (2 : ℚ) ^ (1000 : Int)) :
    ∃ v, (s.divLength k).NonnegValue v ∧
      |v - vs / k| ≤ vs / k / 2 ^ 53 + 1 / 2 ^ 1075 := by
  obtain ⟨m, e, rfl, he, rfl⟩ := hs
  have hkq : (1 : ℚ) ≤ k := by exact_mod_cast hk
  have hk0 : k ≠ 0 := by omega
  have hneg : decide (((m : Nat) : Int) < 0) = false := by simp
  have hval : ((shiftUp m e : Nat) : ℚ) / ((k * shiftUp 1 (-e) : Nat) : ℚ)
      = (m : ℚ) * (2 : ℚ) ^ e / k := by
    have h := shiftUp_natAbs_div (m : Int) e
    rw [abs_of_nonneg (by positivity)] at h
    simp only [Int.natAbs_ofNat, Int.cast_natCast] at h
    rw [← h]
    have hq : (0 : ℚ) < ((shiftUp 1 (-e) : Nat) : ℚ) := by
      exact_mod_cast shiftUp_pos 1 (-e) le_rfl
    push_cast
    field_simp
    left
    ring
  simp only [JSNum.divLength, hk0, if_false, hneg, Int.natAbs_ofNat]
  by_cases h0 : shiftUp m e = 0
  · refine ⟨0, ?_, ?_⟩
    · rw [h0]
      simpa [roundDouble] using nonnegValue_zero
    · rw [h0] at hval
      simp only [Nat.cast_zero, zero_div] at hval
      rw [← hval]
      simp
  · have hden : 1 ≤ k * shiftUp 1 (-e) := Nat.mul_pos hk (shiftUp_pos 1 _ le_rfl)
    have hle : (m : ℚ) * (2 : ℚ) ^ e / k ≤ (m : ℚ) * (2 : ℚ) ^ e :=
      div_le_self (by positivity) hkq
    obtain ⟨m', e', hr, he', herr, -⟩ := roundDouble_error _ _ (Nat.one_le_iff_ne_zero.mpr h0)
      hden (by rw [hval]; exact lt_of_le_of_lt hle hbig)
    refine ⟨(m' : ℚ) * (2 : ℚ) ^ e', ⟨m', e', hr, he', rfl⟩, ?_⟩
    rwa [hval] at herr

theorem nonnegValue_toRat (x : JSNum) (v : ℚ) (h : x.NonnegValue v) : x.toRat = v := by
  obtain ⟨m, e, rfl, -, rfl⟩ := h
  simp [JSNum.toRat]

theorem one_add_pow_le (j : Nat) (hj : 2 * j ≤ 2 ^ 53) :
    (1 + 1 / (2 : ℚ) ^ 53) ^ j ≤ 1 + 2 * j / 2 ^ 53 := by
  induction j with
  | zero => simp
  | succ j ih =>
    have ih' := ih (by omega)
    have hjq : (2 : ℚ) * j ≤ 2 ^ 53 := by exact_mod_cast (by omega : 2 * j ≤ 2 ^ 53)
    have hu : (0 : ℚ) < 1 / (2 : ℚ) ^ 53 := by positivity
    rw [pow_succ]
    calc (1 + 1 / (2 : ℚ) ^ 53) ^ j * (1 + 1 / (2 : ℚ) ^ 53)
        ≤ (1 + 2 * j / 2 ^ 53) * (1 + 1 / (2 : ℚ) ^ 53) :=
          mul_le_mul_of_nonneg_right ih' (by positivity)
      _ ≤ 1 + 2 * ((j + 1 : Nat) : ℚ) / 2 ^ 53 := by
          push_cast
          have h1 : (2 : ℚ) * j / 2 ^ 53 ≤ 1 := by
            rw [div_le_one (by positivity)]
            exact hjq
          have h2 : (2 : ℚ) * j / 2 ^ 53 * (1 / (2 : ℚ) ^ 53) ≤ 1 * (1 / (2 : ℚ) ^ 53) :=
            mul_le_mul_of_nonneg_right h1 hu.le
          have e1 : (1 + 2 * (j : ℚ) / 2 ^ 53) * (1 + 1 / (2 : ℚ) ^ 53)
              = 1 + 2 * (j : ℚ) / 2 ^ 53 + 1 / (2 : ℚ) ^ 53
                + 2 * (j : ℚ) / 2 ^ 53 * (1 / (2 : ℚ) ^ 53) := by ring
          have e2 : (1 : ℚ) + 2 * ((j : ℚ) + 1) / 2 ^ 53
              = 1 + 2 * (j : ℚ) / 2 ^ 53 + 1 / (2 : ℚ) ^ 53 + 1 * (1 / (2 : ℚ) ^ 53) := by ring
          rw [e1, e2]
          linarith

/-- The double sum of ratings with values between 0 and 10, added from the left to an
accumulator that is within the factor `(1 + 2 ^ (-53)) ^ j` of an exact `A`, is within the
factor `(1 + 2 ^ (-53)) ^ (j + length)` of the exact sum. -/
theorem foldl_add_error (xs : List Movie) :
    ∀ (acc : JSNum) (A va : ℚ) (j : Nat), acc.NonnegValue va → 0 ≤ A →
      |va - A| ≤ ((1 + 1 / (2 : ℚ) ^ 53) ^ j - 1) * A →
      (∀ m ∈ xs, ∃ v, (toNumber m.rating).NonnegValue v ∧ v ≤ 10) →
      A + 10 * (xs.length : ℚ) ≤ (2 : ℚ) ^ (900 : Int) → 2 * (j + xs.length) ≤ 2 ^ 53 →
      ∃ v, (xs.foldl (fun (sum : JSNum) movie => sum.add (toNumber movie.rating))
          acc).NonnegValue v ∧
        |v - (A + (xs.map fun m => (toNumber m.rating).toRat).sum)|
          ≤ ((1 + 1 / (2 : ℚ) ^ 53) ^ (j + xs.length) - 1)
            * (A + (xs.map fun m => (toNumber m.rating).toRat).sum) := by
  induction xs with
  | nil =>
    intro acc A va j hacc _ herr _ _ _
    exact ⟨va, hacc, by simpa using herr⟩
  | cons x xs ih =>
    intro acc A va j hacc hA herr hx hbig hj
    obtain ⟨vx, hvx, hvx10⟩ := hx x (List.mem_cons_self _ _)
    have hvx0 := nonnegValue_nonneg _ _ hvx
    have hva0 := nonnegValue_nonneg _ _ hacc
    simp only [List.length_cons, Nat.cast_add, Nat.cast_one] at hbig hj
    have hlen0 : (0 : ℚ) ≤ (xs.length : ℚ) := Nat.cast_nonneg _
    set g : ℚ := (1 + 1 / (2 : ℚ) ^ 53) ^ j with hg
    have hg1 : 1 ≤ g := one_le_pow₀ (by norm_num)
    have hg2 : g ≤ 2 := by
      have h := one_add_pow_le j (by omega)
      have hjq : (2 : ℚ) * j ≤ 2 ^ 53 := by exact_mod_cast (by omega : 2 * j ≤ 2 ^ 53)
      have : (2 : ℚ) * j / 2 ^ 53 ≤ 1 := by
        rw [div_le_one (by positivity)]
        exact hjq
      linarith
    have hva : va ≤ g * A := by
      have := (abs_le.mp herr).2
      linarith
    have h900 : (2 : ℚ) ^ (900 : Int) * 2 + 10 < (2 : ℚ) ^ (1000 : Int) := by
      norm_num
    have hsum_big : va + vx < (2 : ℚ) ^ (1000 : Int) := by
      have : g * A ≤ 2 * A := mul_le_mul_of_nonneg_right hg2 hA
      linarith
    obtain ⟨v', hv', herr'⟩ := add_error acc (toNumber x.rating) va vx hacc hvx hsum_big
    have hstep : |v' - (A + vx)|
        ≤ ((1 + 1 / (2 : ℚ) ^ 53) ^ (j + 1) - 1) * (A + vx) := by
      rw [pow_succ, ← hg]
      have h1 := abs_le.mp herr
      have h2 := abs_le.mp herr'
      have hu : (0 : ℚ) < 1 / (2 : ℚ) ^ 53 := by positivity
      have e1 : (va + vx) / 2 ^ 53 = (va + vx) * (1 / (2 : ℚ) ^ 53) := by ring
      rw [e1] at h2
      have h3 : va * (1 / (2 : ℚ) ^ 53) ≤ g * A * (1 / (2 : ℚ) ^ 53) :=
        mul_le_mul_of_nonneg_right hva hu.le
      have h4 : vx * (1 / (2 : ℚ) ^ 53) ≤ vx * (g * (1 / (2 : ℚ) ^ 53)) := by
        have : 1 * (1 / (2 : ℚ) ^ 53) ≤ g * (1 / (2 : ℚ) ^ 53) :=
          mul_le_mul_of_nonneg_right hg1 hu.le
        calc vx * (1 / (2 : ℚ) ^ 53) = vx * (1 * (1 / (2 : ℚ) ^ 53)) := by ring
          _ ≤ vx * (g * (1 / (2 : ℚ) ^ 53)) := mul_le_mul_of_nonneg_left this hvx0
      have h5 : (0 : ℚ) ≤ vx * (g - 1) := mul_nonneg hvx0 (by linarith)
      rw [abs_le]
      constructor
      · nlinarith
      · nlinarith
    have hx' : ∀ m ∈ xs, ∃ v, (toNumber m.rating).NonnegValue v ∧ v ≤ 10 := fun m hm =>
      hx m (List.mem_cons_of_mem _ hm)
    obtain ⟨v, hv, hverr⟩ := ih (acc.add (toNumber x.rating)) (A + vx) v' (j + 1) hv'
      (by linarith) hstep hx' (by linarith) (by omega)
    refine ⟨v, hv, ?_⟩
    have hxr := nonnegValue_toRat _ _ hvx
    simp only [List.map_cons, List.sum_cons, List.length_cons, hxr]
    have e2 : j + (xs.length + 1) = j + 1 + xs.length := by omega
    rw [e2, ← add_assoc]
    exact hverr

theorem rating_nonnegValue (r : JSString) (h0 : (JSNum.fin 0 0).le (toNumber r) = true)
    (h10 : (toNumber r).le (.fin 10 0) = true) :
    ∃ v, (toNumber r).NonnegValue v ∧ v ≤ 10 := by
  have hp := toNumber_proper r
  generalize toNumber r = x at h0 h10 hp
  cases x with
  | nan => simp [JSNum.le] at h0
  | inf b => cases b <;> simp [JSNum.le] at h0 h10
  | fin m e =>
    have he : -1074 ≤ e := hp.resolve_left (by simp)
    rw [fin_le_iff] at h0 h10
    have hpe : (0 : ℚ) < (2 : ℚ) ^ e := by positivity
    have hm : 0 ≤ m := by
      by_contra hc
      have : (m : ℚ) < 0 := by exact_mod_cast not_le.mp hc
      have := mul_neg_of_neg_of_pos this hpe
      simp at h0
      linarith
    obtain ⟨k, rfl⟩ := Int.eq_ofNat_of_zero_le hm
    refine ⟨(k : ℚ) * (2 : ℚ) ^ e, ⟨k, e, rfl, he, rfl⟩, ?_⟩
    simpa using h10

theorem sum_toRat_bounds (xs : List Movie)
    (hx : ∀ m ∈ xs, ∃ v, (toNumber m.rating).NonnegValue v ∧ v ≤ 10) :
    0 ≤ (xs.map fun m => (toNumber m.rating).toRat).sum ∧
      (xs.map fun m => (toNumber m.rating).toRat).sum ≤ 10 * (xs.length : ℚ) := by
  induction xs with
  | nil => simp
  | cons x xs ih =>
    obtain ⟨v, hv, hv10⟩ := hx x (List.mem_cons_self _ _)
    have h0 := nonnegValue_nonneg _ _ hv
    have hr := nonnegValue_toRat _ _ hv
    obtain ⟨i1, i2⟩ := ih fun m hm => hx m (List.mem_cons_of_mem _ hm)
    simp only [List.map_cons, List.sum_cons, List.length_cons, hr, Nat.cast_add, Nat.cast_one]
    constructor <;> linarith

/-- For a catalog of at least one and at most `2 ^ 20` records whose ratings coerce to
numbers between 0 and 10, the average `showStats` reports is a number of hundredths within
`0.005 + 10 ^ (-8)` of the exact arithmetic mean of the coerced ratings. -/
theorem meanRating_near_mean (cat : Catalog) (hne : cat ≠ []) (hlen : cat.length ≤ 2 ^ 20)
    (hr : ∀ m ∈ cat, (JSNum.fin 0 0).le (toNumber m.rating) = true ∧
      (toNumber m.rating).le (.fin 10 0) = true) :
    ∃ n : Nat, toFixed2 (meanRating cat) = .decimal false n ∧
      |(n : ℚ) / 100 - arithmeticMean cat| ≤ 1 / 200 + 1 / 10 ^ 8 := by
  have hx : ∀ m ∈ cat, ∃ v, (toNumber m.rating).NonnegValue v ∧ v ≤ 10 := fun m hm =>
    rating_nonnegValue m.rating (hr m hm).1 (hr m hm).2
  have hk : 1 ≤ cat.length := List.length_pos.mpr hne
  have hkq : (1 : ℚ) ≤ (cat.length : ℚ) := by exact_mod_cast hk
  have hkq' : (cat.length : ℚ) ≤ 2 ^ 20 := by exact_mod_cast hlen
  obtain ⟨hS0, hS10⟩ := sum_toRat_bounds cat hx
  have h900 : (0 : ℚ) + 10 * (cat.length : ℚ) ≤ (2 : ℚ) ^ (900 : Int) := by
    have : (10 : ℚ) * 2 ^ 20 ≤ (2 : ℚ) ^ (900 : Int) := by norm_num
    linarith
  obtain ⟨s, hs, hserr⟩ := foldl_add_error cat (.fin 0 0) 0 0 0 nonnegValue_zero le_rfl
    (by simp) hx h900 (by omega)
  simp only [zero_add] at hserr
  set S : ℚ := (cat.map fun m => (toNumber m.rating).toRat).sum with hSdef
  have hpow := one_add_pow_le cat.length (by omega)
  have hs0 := nonnegValue_nonneg _ _ hs
  have hfac : (1 + 1 / (2 : ℚ) ^ 53) ^ cat.length - 1 ≤ 1 / 2 ^ 32 := by
    have : (2 : ℚ) * (cat.length : ℚ) / 2 ^ 53 ≤ 1 / 2 ^ 32 := by
      rw [div_le_div_iff₀ (by positivity) (by positivity)]
      have : (2 : ℚ) * (cat.length : ℚ) * 2 ^ 32 ≤ 2 * 2 ^ 20 * 2 ^ 32 := by
        have := mul_le_mul_of_nonneg_left hkq' (by norm_num : (0 : ℚ) ≤ 2)
        exact mul_le_mul_of_nonneg_right this (by positivity)
      norm_num at this ⊢
      linarith
    linarith
  have hfac0 : (0 : ℚ) ≤ (1 + 1 / (2 : ℚ) ^ 53) ^ cat.length - 1 := by
    have : (1 : ℚ) ≤ (1 + 1 / (2 : ℚ) ^ 53) ^ cat.length := one_le_pow₀ (by norm_num)
    linarith
  have hsS : |s - S| ≤ S / 2 ^ 32 := by
    refine le_trans hserr ?_
    calc ((1 + 1 / (2 : ℚ) ^ 53) ^ cat.length - 1) * S ≤ 1 / 2 ^ 32 * S :=
          mul_le_mul_of_nonneg_right hfac hS0
      _ = S / 2 ^ 32 := by ring
  have hs2 : s ≤ 2 * S := by
    have := (abs_le.mp hsS).2
    have : S / 2 ^ 32 ≤ S := div_le_self hS0 (by norm_num)
    linarith
  have hsbig : s < (2 : ℚ) ^ (1000 : Int) := by
    have : (2 : ℚ) * (10 * 2 ^ 20) < (2 : ℚ) ^ (1000 : Int) := by norm_num
    nlinarith
  obtain ⟨v, hv, hverr⟩ := divLength_error (sumRatings cat) s cat.length hs hk hsbig
  obtain ⟨m, e, hme, he, rfl⟩ := hv
  have hmean : meanRating cat = .fin (m : Int) e := hme
  have hspec := toFixed2_spec (.fin (m : Int) e)
  simp only [Int.cast_natCast] at hspec
  have hvabs : |(m : ℚ) * (2 : ℚ) ^ e| = (m : ℚ) * (2 : ℚ) ^ e := abs_of_nonneg (by positivity)
  have hM : arithmeticMean cat = S / (cat.length : ℚ) := rfl
  have hkpos : (0 : ℚ) < (cat.length : ℚ) := by linarith
  have hM0 : 0 ≤ S / (cat.length : ℚ) := div_nonneg hS0 hkpos.le
  have hM10 : S / (cat.length : ℚ) ≤ 10 := by
    rw [div_le_iff₀ hkpos]
    exact hS10
  have hsk : |s / (cat.length : ℚ) - S / (cat.length : ℚ)| ≤ 10 / 2 ^ 32 := by
    rw [← sub_div, abs_div, abs_of_pos hkpos]
    calc |s - S| / (cat.length : ℚ) ≤ S / 2 ^ 32 / (cat.length : ℚ) :=
          div_le_div_of_nonneg_right hsS hkpos.le
      _ = S / (cat.length : ℚ) / 2 ^ 32 := by ring
      _ ≤ 10 / 2 ^ 32 := div_le_div_of_nonneg_right hM10 (by positivity)
  have hsk2 : s / (cat.length : ℚ) ≤ 20 := by
    have : s / (cat.length : ℚ) ≤ 2 * S / (cat.length : ℚ) :=
      div_le_div_of_nonneg_right hs2 hkpos.le
    have e1 : 2 * S / (cat.length : ℚ) = 2 * (S / (cat.length : ℚ)) := by ring
    linarith
  have hsk0 : 0 ≤ s / (cat.length : ℚ) := div_nonneg hs0 hkpos.le
  have hverr' : |(m : ℚ) * (2 : ℚ) ^ e - s / (cat.length : ℚ)|
      ≤ 20 / 2 ^ 53 + 1 / 2 ^ 53 := by
    refine le_trans hverr ?_
    have h1 : s / (cat.length : ℚ) / 2 ^ 53 ≤ 20 / 2 ^ 53 :=
      div_le_div_of_nonneg_right hsk2 (by positivity)
    have h2 : (1 : ℚ) / 2 ^ 1075 ≤ 1 / 2 ^ 53 :=
      one_div_le_one_div_of_le (by positivity) (pow_le_pow_right₀ (by norm_num) (by norm_num))
    linarith
  have hvsmall : (m : ℚ) * (2 : ℚ) ^ e < 10 ^ 21 := by
    have := (abs_le.mp hverr').2
    have : (20 : ℚ) / 2 ^ 53 + 1 / 2 ^ 53 ≤ 1 := by norm_num
    have : (21 : ℚ) < 10 ^ 21 := by norm_num
    linarith
  rw [hmean]
  rcases hspec with ⟨hlarge, -⟩ | ⟨-, n, hn, hnerr⟩
  · rw [hvabs] at hlarge
    linarith
  · refine ⟨n, by simpa using hn, ?_⟩
    rw [hvabs] at hnerr
    rw [hM]
    have a1 := abs_le.mp hnerr
    have a2 := abs_le.mp hverr'
    have a3 := abs_le.mp hsk
    have hnum : (20 : ℚ) / 2 ^ 53 + 1 / 2 ^ 53 + 10 / 2 ^ 32 ≤ 1 / 10 ^ 8 := by norm_num
    rw [abs_le]
    constructor <;> linarith

/-- C6, as the claim states it, fails: for the catalog of three records rated 1, 2 and 2
`showStats` reports `1.67`, which is neither the arithmetic mean `5 / 3` of the ratings
nor the double-precision quotient `7505999378950827 / 2 ^ 52` of their sum by 3. -/
theorem showStats_average_not_mean :
    showStats ⟨.object tiedCatalog, []⟩
      = .ok ⟨.object tiedCatalog, [.text "\nDatabase Statistics:", .total 3,
          .average (.decimal false 167), .genres ["Horror".toList, "Comedy".toList]]⟩ ∧
    arithmeticMean tiedCatalog = 5 / 3 ∧
    meanRating tiedCatalog = .fin 7505999378950827 (-52) ∧
    (toFixed2 (meanRating tiedCatalog)).toRat? = some (167 / 100) ∧
    (toFixed2 (meanRating tiedCatalog)).toRat? ≠ some (arithmeticMean tiedCatalog) ∧
    (toFixed2 (meanRating tiedCatalog)).toRat? ≠ some (meanRating tiedCatalog).toRat := by
  have hmean : meanRating tiedCatalog = .fin 7505999378950827 (-52) := by decide
  have hnum : (tiedCatalog.map fun m => toNumber m.rating)
      = [.fin 4503599627370496 (-52), .fin 4503599627370496 (-51),
          .fin 4503599627370496 (-51)] := by decide
  have hfix : toFixed2 (.fin 7505999378950827 (-52)) = .decimal false 167 := by decide
  have harith : arithmeticMean tiedCatalog = 5 / 3 := by
    unfold arithmeticMean
    have hmap : (tiedCatalog.map fun m => (toNumber m.rating).toRat)
        = (tiedCatalog.map fun m => toNumber m.rating).map JSNum.toRat := by
      rw [List.map_map]
      rfl
    rw [hmap, hnum]
    simp only [List.map_cons, List.map_nil, List.sum_cons, List.sum_nil, JSNum.toRat,
      tiedCatalog, List.length_cons, List.length_nil]
    norm_num
  refine ⟨?_, harith, hmean, ?_, ?_, ?_⟩
  · rw [showStats_object, hmean, hfix]
    rfl
  · rw [hmean, hfix]
    simp [Fixed.toRat?]
  · rw [hmean, hfix, harith]
    simp only [Fixed.toRat?, ne_eq, Option.some.injEq]
    norm_num
  · rw [hmean, hfix]
    simp only [Fixed.toRat?, JSNum.toRat, ne_eq, Option.some.injEq]
    norm_num

/-- C6, amended: for every catalog `showStats` reports `toFixed(2)` of the double-precision
quotient of the sum of the ratings coerced to numbers by the number of records: `NaN` for
`NaN` (the quotient of the empty catalog), a signed infinity for an infinity, the number
itself from magnitude `10 ^ 21` on, and otherwise the quotient rounded to two decimals,
that is its sign with a number of hundredths within `0.005` of its magnitude.  For a
catalog of 1 to `2 ^ 20` records whose ratings coerce to numbers between 0 and 10 the
reported number of hundredths is within `0.005 + 10 ^ (-8)` of the exact arithmetic mean. -/
theorem showStats_average_rounded (cat : Catalog) (out : List Line) :
    (∃ genres, showStats ⟨.object cat, out⟩
      = .ok ⟨.object cat, out ++ [.text "\nDatabase Statistics:", .total cat.length,
          .average (toFixed2 (meanRating cat)), .genres genres]⟩) ∧
    meanRating cat
      = (cat.foldl (fun (sum : JSNum) movie => sum.add (toNumber movie.rating))
          (.fin 0 0)).divLength cat.length ∧
    (cat = [] → toFixed2 (meanRating cat) = .nan) ∧
    (match meanRating cat with
    | .nan => toFixed2 (meanRating cat) = .nan
    | .inf neg => toFixed2 (meanRating cat) = .infinity neg
    | .fin m e =>
      ((10 : ℚ) ^ 21 ≤ |(m : ℚ) * (2 : ℚ) ^ e| ∧ toFixed2 (meanRating cat) = .large (.fin m e)) ∨
      (|(m : ℚ) * (2 : ℚ) ^ e| < (10 : ℚ) ^ 21 ∧
        ∃ n : Nat, toFixed2 (meanRating cat) = .decimal (decide (m < 0)) n ∧
          |(n : ℚ) / 100 - abs ((m : ℚ) * (2 : ℚ) ^ e)| ≤ 1 / 200)) ∧
    (cat ≠ [] → cat.length ≤ 2 ^ 20 →
      (∀ m ∈ cat, (JSNum.fin 0 0).le (toNumber m.rating) = true ∧
        (toNumber m.rating).le (.fin 10 0) = true) →
      ∃ n : Nat, toFixed2 (meanRating cat) = .decimal false n ∧
        |(n : ℚ) / 100 - arithmeticMean cat| ≤ 1 / 200 + 1 / 10 ^ 8) := by
  refine ⟨⟨_, showStats_object cat out⟩, rfl, ?_, ?_, meanRating_near_mean cat⟩
  · intro h
    rw [h, meanRating_nil]
    rfl
  · have h := toFixed2_spec (meanRating cat)
    generalize meanRating cat = q at h ⊢
    cases q <;> exact h

theorem showStats_average_rounded_witness :
    toFixed2 (meanRating []) = .nan ∧
    ∃ n : Nat, toFixed2 (meanRating tiedCatalog) = .decimal false n ∧
      |(n : ℚ) / 100 - arithmeticMean tiedCatalog| ≤ 1 / 200 + 1 / 10 ^ 8 :=
  ⟨(showStats_average_rounded [] []).2.2.1 rfl,
    (showStats_average_rounded tiedCatalog []).2.2.2.2 (by decide) (by decide) (by decide)⟩

end MovieDB
